import Mathlib

/-!
Verification of the Clinical Core ICD-10 search and ranking pipeline.

This file is a shallow embedding, in Lean 4, of the pipeline implemented in
`app/services/clinical_search_engine.py`, `app/repositories/icd10_extended_repository.py`,
`app/services/anatomical_boost_service.py`, `app/services/icd10_selection_service.py`,
`app/schemas/icd10_selection.py`, `app/services/search_normalization.py` and
`app/core/search_config.py`, together with proofs about the embedded definitions.

Modelling conventions:
* Python/SQL strings are Lean `String`s (or `List Char` inside the normalization
  functions); machine floats are modelled as rationals.
* Python whitespace is modelled as the ASCII whitespace set; `str.upper`,
  `str.lower` on code-like inputs and SQL `upper`/`lower`/`ILIKE` are modelled
  with the ASCII `Char.toUpper`/`Char.toLower`.
* Unicode case folding, NFKD decomposition and combining-mark classification
  used by the text normalizers are kept abstract in a `UnicodeModel`, with the
  theorems assuming only that these maps fix the output alphabet `[a-z0-9. ]`.
* The trigram `similarity` store function is an abstract parameter
  `sim : String → String → ℚ`.
* Python's stable `list.sort`/`sorted` and SQL `ORDER BY` chains are modelled
  with `List.insertionSort` over a key order (insertion sort is stable).
* Store failures (exceptions) are modelled as explicit outcome flags.
-/

namespace ClinicalCore

/-! ### Python-style string primitives -/

/-- ASCII model of the whitespace set used by Python `str.strip` / `str.split`. -/
def isPySpace (c : Char) : Bool :=
  c = ' ' || c = '\t' || c = '\n' || c = '\r' || c = '\x0b' || c = '\x0c'

/-- Model of Python `str.strip()` on a character list. -/
def pyStrip (l : List Char) : List Char :=
  ((l.dropWhile isPySpace).reverse.dropWhile isPySpace).reverse

/-- Model of Python `str.strip()` on a `String`. -/
def stripS (s : String) : String := ⟨pyStrip s.data⟩

/-- ASCII lowercasing of a string (model of `str.lower` / SQL `lower` on the
ASCII inputs relevant here). -/
def lowerS (s : String) : String := ⟨s.data.map Char.toLower⟩

/-- ASCII uppercasing of a string (model of `str.upper` / SQL `upper`). -/
def upperS (s : String) : String := ⟨s.data.map Char.toUpper⟩

/-- Maximal runs of characters satisfying `keep`; the common engine of
`re.findall` for a character-class regex and of Python `str.split()`. -/
def runsBy (keep : Char → Bool) : List Char → List Char → List (List Char)
  | [], acc => if acc.isEmpty then [] else [acc.reverse]
  | c :: cs, acc =>
    if keep c then runsBy keep cs (c :: acc)
    else if acc.isEmpty then runsBy keep cs [] else acc.reverse :: runsBy keep cs []

/-- Model of Python `str.split()` (split on whitespace runs, drop empties). -/
def splitWS (l : List Char) : List (List Char) := runsBy (fun c => !isPySpace c) l []

/-- Characters matched by the token regex `[a-z0-9.]+` of the normalizers. -/
def isTokenChar (c : Char) : Bool :=
  ('a' ≤ c && c ≤ 'z') || ('0' ≤ c && c ≤ '9') || c = '.'

/-- Model of `_TOKEN_RE.findall` for the regex `[a-z0-9.]+`. -/
def findTokens (l : List Char) : List (List Char) := runsBy isTokenChar l []

/-- Model of `" ".join(tokens)`. -/
def joinSpace : List (List Char) → List Char
  | [] => []
  | [t] => t
  | t :: t2 :: ts => t ++ ' ' :: joinSpace (t2 :: ts)

/-- Substring containment, the model of Python `needle in hay` and of
SQL `LIKE CONCAT(CONCAT(ANY, pat), ANY)` for a wildcard-free pattern. -/
def substrB (hay pat : String) : Bool := decide (pat.data <:+: hay.data)

/-- Case-insensitive containment: model of SQL `ILIKE` with a `%pat%` pattern. -/
def ilikeB (hay pat : String) : Bool := substrB (lowerS hay) (lowerS pat)

/-! ### Text normalization (`search_normalization.py`, `_normalize_query`) -/

/-- Abstract model of the Unicode primitives used by the normalizers:
`str.lower` (which may expand a character), NFKD decomposition, and the
combining-mark test of `unicodedata.combining`. -/
structure UnicodeModel where
  lower : Char → List Char
  nfkd : Char → List Char
  combining : Char → Bool

/-- Trivial instantiation of the Unicode primitives (identity casefold, no
decomposition, no combining marks); used to evaluate the normalizers on
concrete ASCII inputs. -/
def idUnicode : UnicodeModel :=
  { lower := fun c => [c], nfkd := fun c => [c], combining := fun _ => false }

/-- Model of Python `str.lower()` under a `UnicodeModel`. -/
def pyLower (u : UnicodeModel) (l : List Char) : List Char := (l.map u.lower).flatten

/-- NFKD-decompose and drop combining marks, as in both normalizers. -/
def accentStrip (u : UnicodeModel) (l : List Char) : List Char :=
  ((l.map u.nfkd).flatten).filter (fun c => !u.combining c)

/-- Shared front end of both normalizers: `value.strip().lower()`, NFKD,
combining-mark strip, then `_TOKEN_RE.findall`. -/
def baseTokens (u : UnicodeModel) (s : List Char) : List (List Char) :=
  findTokens (accentStrip u (pyLower u (pyStrip s)))

/-- The Spanish stopword list `STOPWORDS_ES` of `clinical_search_engine.py`. -/
def STOPWORDS : List (List Char) :=
  ["de", "la", "del", "el", "los", "las", "y", "en", "con", "por", "para", "al",
   "un", "una", "unos", "unas", "a", "o", "u", "que", "se", "su"].map String.data

/-- Model of `search_normalization.normalize_text`. -/
def normalizeText (u : UnicodeModel) (s : List Char) : List Char :=
  joinSpace (baseTokens u s)

/-- Model of `ClinicalSearchEngine._normalize_query`: accent-strip, lowercase,
tokenize, drop stopwords with the safety fallback to the unfiltered tokens. -/
def normalizeQuery (u : UnicodeModel) (s : List Char) : List Char :=
  let tokens := baseTokens u s
  let filtered := tokens.filter (fun t => !STOPWORDS.contains t)
  joinSpace (if filtered.isEmpty then tokens else filtered)

/-! ### Lemmas about the tokenizer -/

theorem isPySpace_eq_false_of_isTokenChar {c : Char} (h : isTokenChar c = true) :
    isPySpace c = false := by
  by_contra hs
  simp only [Bool.not_eq_false, isPySpace, Bool.or_eq_true, decide_eq_true_eq] at hs
  rcases hs with ((((h1 | h1) | h1) | h1) | h1) | h1 <;> subst h1 <;> revert h <;> decide

theorem runsBy_all_not_keep {keep : Char → Bool} {w : List Char}
    (hw : ∀ c ∈ w, keep c = false) (acc : List Char) :
    runsBy keep w acc = if acc.isEmpty then [] else [acc.reverse] := by
  induction w generalizing acc with
  | nil => rfl
  | cons c cs ih =>
    have hc : keep c = false := hw c (List.mem_cons_self _ _)
    have hcs : ∀ x ∈ cs, keep x = false := fun x hx => hw x (List.mem_cons_of_mem _ hx)
    simp only [runsBy, hc, Bool.false_eq_true, if_false]
    by_cases hacc : acc.isEmpty
    · simp [hacc, ih hcs]
    · simp [hacc, ih hcs]

theorem runsBy_append_not_keep {keep : Char → Bool} {w : List Char}
    (hw : ∀ c ∈ w, keep c = false) (l acc : List Char) :
    runsBy keep (l ++ w) acc = runsBy keep l acc := by
  induction l generalizing acc with
  | nil =>
    simp only [List.nil_append]
    rw [runsBy_all_not_keep hw acc]
    rfl
  | cons c cs ih =>
    simp only [List.cons_append, runsBy]
    by_cases hc : keep c
    · simp [hc, ih]
    · simp [hc, ih]

theorem runsBy_not_keep_append {keep : Char → Bool} {w : List Char}
    (hw : ∀ c ∈ w, keep c = false) (l : List Char) :
    runsBy keep (w ++ l) [] = runsBy keep l [] := by
  induction w with
  | nil => rfl
  | cons c cs ih =>
    have hc : keep c = false := hw c (List.mem_cons_self _ _)
    have hcs : ∀ x ∈ cs, keep x = false := fun x hx => hw x (List.mem_cons_of_mem _ hx)
    simp only [List.cons_append, runsBy, hc, Bool.false_eq_true, if_false, List.isEmpty_nil,
      if_true]
    exact ih hcs

theorem runsBy_keep_append {keep : Char → Bool} {t : List Char}
    (ht : ∀ c ∈ t, keep c = true) (l acc : List Char) :
    runsBy keep (t ++ l) acc = runsBy keep l (t.reverse ++ acc) := by
  induction t generalizing acc with
  | nil => simp
  | cons c cs ih =>
    have hc : keep c = true := ht c (List.mem_cons_self _ _)
    have hcs : ∀ x ∈ cs, keep x = true := fun x hx => ht x (List.mem_cons_of_mem _ hx)
    simp only [List.cons_append, runsBy, hc, if_true]
    rw [List.append_eq, ih hcs]
    simp [List.append_assoc]

theorem findTokens_pyStrip (l : List Char) : findTokens (pyStrip l) = findTokens l := by
  unfold findTokens pyStrip
  set m := l.dropWhile isPySpace with hm
  have hsplit1 : l = l.takeWhile isPySpace ++ m := (List.takeWhile_append_dropWhile ..).symm
  have htake1 : ∀ c ∈ l.takeWhile isPySpace, isTokenChar c = false := by
    intro c hc
    have : isPySpace c = true := List.mem_takeWhile_imp hc
    by_contra htc
    simp only [Bool.not_eq_false] at htc
    rw [isPySpace_eq_false_of_isTokenChar htc] at this
    exact Bool.false_ne_true this
  set core := (m.reverse.dropWhile isPySpace).reverse with hcore
  have hsplit2 : m = core ++ (m.reverse.takeWhile isPySpace).reverse := by
    have := (List.takeWhile_append_dropWhile (p := isPySpace) (l := m.reverse)).symm
    calc m = m.reverse.reverse := (List.reverse_reverse m).symm
    _ = (m.reverse.takeWhile isPySpace ++ m.reverse.dropWhile isPySpace).reverse := by rw [← this]
    _ = core ++ (m.reverse.takeWhile isPySpace).reverse := by
        rw [List.reverse_append]
  have htake2 : ∀ c ∈ (m.reverse.takeWhile isPySpace).reverse, isTokenChar c = false := by
    intro c hc
    rw [List.mem_reverse] at hc
    have : isPySpace c = true := List.mem_takeWhile_imp hc
    by_contra htc
    simp only [Bool.not_eq_false] at htc
    rw [isPySpace_eq_false_of_isTokenChar htc] at this
    exact Bool.false_ne_true this
  calc runsBy isTokenChar core [] = runsBy isTokenChar (core ++ (m.reverse.takeWhile isPySpace).reverse) [] := (runsBy_append_not_keep htake2 core []).symm
  _ = runsBy isTokenChar m [] := by rw [← hsplit2]
  _ = runsBy isTokenChar (l.takeWhile isPySpace ++ m) [] := (runsBy_not_keep_append htake1 m).symm
  _ = runsBy isTokenChar l [] := by rw [← hsplit1]

theorem runsBy_good {keep : Char → Bool} (l : List Char) :
    ∀ acc, (∀ c ∈ acc, keep c = true) →
      ∀ t ∈ runsBy keep l acc, t ≠ [] ∧ ∀ c ∈ t, keep c = true := by
  induction l with
  | nil =>
    intro acc hacc t ht
    simp only [runsBy] at ht
    cases h : acc.isEmpty with
    | true => rw [h, if_pos rfl] at ht; exact absurd ht (List.not_mem_nil t)
    | false =>
      rw [h] at ht
      simp only [Bool.false_eq_true, if_false, List.mem_singleton] at ht
      subst ht
      constructor
      · intro hr
        rw [List.reverse_eq_nil_iff] at hr
        rw [hr] at h
        exact absurd h (by simp)
      · exact fun c hc => hacc c (List.mem_reverse.mp hc)
  | cons c cs ih =>
    intro acc hacc t ht
    simp only [runsBy] at ht
    by_cases hc : keep c = true
    · rw [if_pos hc] at ht
      refine ih (c :: acc) ?_ t ht
      intro x hx
      rcases List.mem_cons.mp hx with h | h
      · rw [h]; exact hc
      · exact hacc x h
    · rw [if_neg hc] at ht
      cases h2 : acc.isEmpty with
      | true =>
        rw [h2, if_pos rfl] at ht
        exact ih [] (fun x hx => absurd hx (List.not_mem_nil x)) t ht
      | false =>
        rw [h2] at ht
        simp only [Bool.false_eq_true, if_false, List.mem_cons] at ht
        rcases ht with ht | ht
        · subst ht
          constructor
          · intro hr
            rw [List.reverse_eq_nil_iff] at hr
            rw [hr] at h2
            exact absurd h2 (by simp)
          · exact fun x hx => hacc x (List.mem_reverse.mp hx)
        · exact ih [] (fun x hx => absurd hx (List.not_mem_nil x)) t ht

theorem findTokens_good {l : List Char} :
    ∀ t ∈ findTokens l, t ≠ [] ∧ ∀ c ∈ t, isTokenChar c = true :=
  runsBy_good l [] (by intro c hc; simp at hc)

theorem runsBy_joinSpace {keep : Char → Bool} (hsp : keep ' ' = false)
    {ts : List (List Char)} (h : ∀ t ∈ ts, t ≠ [] ∧ ∀ c ∈ t, keep c = true) :
    runsBy keep (joinSpace ts) [] = ts := by
  induction ts with
  | nil => rfl
  | cons t rest ih =>
    rcases h t (List.mem_cons_self _ _) with ⟨htne, htc⟩
    cases rest with
    | nil =>
      have h1 : joinSpace [t] = t := rfl
      rw [h1]
      conv_lhs => rw [← List.append_nil t]
      rw [runsBy_keep_append htc]
      simp only [runsBy, List.append_nil]
      rw [if_neg (by simp [List.isEmpty_iff, htne]), List.reverse_reverse]
    | cons t2 rest2 =>
      show runsBy keep (t ++ ' ' :: joinSpace (t2 :: rest2)) [] = t :: t2 :: rest2
      rw [runsBy_keep_append htc]
      simp only [runsBy, List.append_nil, hsp, Bool.false_eq_true, if_false]
      rw [if_neg (by simp [List.isEmpty_iff, htne]), List.reverse_reverse]
      have := ih (fun x hx => h x (List.mem_cons_of_mem _ hx))
      exact congrArg (t :: ·) this

theorem findTokens_joinSpace {ts : List (List Char)}
    (h : ∀ t ∈ ts, t ≠ [] ∧ ∀ c ∈ t, isTokenChar c = true) :
    findTokens (joinSpace ts) = ts :=
  runsBy_joinSpace (by decide) h

theorem splitWS_joinSpace {ts : List (List Char)}
    (h : ∀ t ∈ ts, t ≠ [] ∧ ∀ c ∈ t, isPySpace c = false) :
    splitWS (joinSpace ts) = ts :=
  @runsBy_joinSpace (fun c => !isPySpace c) (by decide) ts
    (fun t ht => ⟨(h t ht).1, fun c hc => by simp [(h t ht).2 c hc]⟩)

theorem mem_joinSpace_of_mem {ts : List (List Char)} {t : List Char} (ht : t ∈ ts)
    {c : Char} (hc : c ∈ t) : c ∈ joinSpace ts := by
  induction ts with
  | nil => exact absurd ht (List.not_mem_nil t)
  | cons t1 rest ih =>
    cases rest with
    | nil =>
      rw [List.mem_singleton] at ht
      subst ht
      exact hc
    | cons t2 rest2 =>
      show c ∈ t1 ++ ' ' :: joinSpace (t2 :: rest2)
      rcases List.mem_cons.mp ht with h | h
      · subst h
        exact List.mem_append_left _ hc
      · exact List.mem_append_right _ (List.mem_cons_of_mem _ (ih h))

theorem mem_joinSpace {ts : List (List Char)} {c : Char} (hc : c ∈ joinSpace ts) :
    c = ' ' ∨ ∃ t ∈ ts, c ∈ t := by
  induction ts with
  | nil => simp [joinSpace] at hc
  | cons t rest ih =>
    cases rest with
    | nil =>
      right
      exact ⟨t, List.mem_cons_self _ _, hc⟩
    | cons t2 rest2 =>
      simp only [joinSpace, List.mem_append, List.mem_cons] at hc
      rcases hc with hc | hc | hc
      · exact Or.inr ⟨t, List.mem_cons_self _ _, hc⟩
      · exact Or.inl hc
      · rcases ih hc with h | ⟨u, hu, hcu⟩
        · exact Or.inl h
        · exact Or.inr ⟨u, List.mem_cons_of_mem _ hu, hcu⟩

theorem flatten_map_eq_self {f : Char → List Char} {l : List Char}
    (h : ∀ c ∈ l, f c = [c]) : (l.map f).flatten = l := by
  induction l with
  | nil => rfl
  | cons c cs ih =>
    simp only [List.map_cons, List.flatten_cons, h c (List.mem_cons_self _ _),
      List.singleton_append, List.cons.injEq, true_and]
    exact ih fun x hx => h x (List.mem_cons_of_mem _ hx)

theorem mem_pyStrip {l : List Char} {c : Char} (hc : c ∈ pyStrip l) : c ∈ l := by
  unfold pyStrip at hc
  rw [List.mem_reverse] at hc
  have h1 := (List.dropWhile_sublist (l := (l.dropWhile isPySpace).reverse) isPySpace).subset hc
  rw [List.mem_reverse] at h1
  exact (List.dropWhile_sublist (l := l) isPySpace).subset h1

theorem baseTokens_joinSpace (u : UnicodeModel)
    (hl : ∀ c, isTokenChar c = true → u.lower c = [c]) (hlsp : u.lower ' ' = [' '])
    (hn : ∀ c, isTokenChar c = true → u.nfkd c = [c]) (hnsp : u.nfkd ' ' = [' '])
    (hcm : ∀ c, isTokenChar c = true → u.combining c = false) (hcmsp : u.combining ' ' = false)
    {ts : List (List Char)} (hts : ∀ t ∈ ts, t ≠ [] ∧ ∀ c ∈ t, isTokenChar c = true) :
    baseTokens u (joinSpace ts) = ts := by
  unfold baseTokens
  have hchars : ∀ c ∈ pyStrip (joinSpace ts), isTokenChar c = true ∨ c = ' ' := by
    intro c hm
    rcases mem_joinSpace (mem_pyStrip hm) with h | ⟨t, htm, hct⟩
    · exact Or.inr h
    · exact Or.inl ((hts t htm).2 c hct)
  have hlow : pyLower u (pyStrip (joinSpace ts)) = pyStrip (joinSpace ts) := by
    apply flatten_map_eq_self
    intro c hm
    rcases hchars c hm with h | h
    · exact hl c h
    · rw [h]; exact hlsp
  rw [hlow]
  have hnf : ((pyStrip (joinSpace ts)).map u.nfkd).flatten = pyStrip (joinSpace ts) := by
    apply flatten_map_eq_self
    intro c hm
    rcases hchars c hm with h | h
    · exact hn c h
    · rw [h]; exact hnsp
  have hacc : accentStrip u (pyStrip (joinSpace ts)) = pyStrip (joinSpace ts) := by
    unfold accentStrip
    rw [hnf]
    apply List.filter_eq_self.mpr
    intro c hm
    rcases hchars c hm with h | h
    · rw [hcm c h]; rfl
    · rw [h, hcmsp]; rfl
  rw [hacc, findTokens_pyStrip, findTokens_joinSpace hts]

/-- Claim C9: the natural-language normalization of
`ClinicalSearchEngine._normalize_query` (trim, lowercase, NFKD accent strip,
tokenization on the class described by the regex, stopword filtering with the
fallback to the unfiltered tokens, single-space join) is idempotent, for any
Unicode primitives that fix the output alphabet made of the token characters
and the space. -/
theorem c9_normalize_idempotent (u : UnicodeModel)
    (hl : ∀ c, isTokenChar c = true → u.lower c = [c]) (hlsp : u.lower ' ' = [' '])
    (hn : ∀ c, isTokenChar c = true → u.nfkd c = [c]) (hnsp : u.nfkd ' ' = [' '])
    (hcm : ∀ c, isTokenChar c = true → u.combining c = false)
    (hcmsp : u.combining ' ' = false) (s : List Char) :
    normalizeQuery u (normalizeQuery u s) = normalizeQuery u s := by
  unfold normalizeQuery
  have hgood : ∀ t ∈ baseTokens u s, t ≠ [] ∧ ∀ c ∈ t, isTokenChar c = true := by
    unfold baseTokens
    exact fun t ht => findTokens_good t ht
  cases hfe : ((baseTokens u s).filter (fun t => !STOPWORDS.contains t)).isEmpty with
  | true =>
    simp only [hfe, if_true]
    have h2 : baseTokens u (joinSpace (baseTokens u s)) = baseTokens u s :=
      baseTokens_joinSpace u hl hlsp hn hnsp hcm hcmsp hgood
    rw [h2, hfe]
    simp
  | false =>
    simp only [hfe, Bool.false_eq_true, if_false]
    have hsub : ∀ t ∈ (baseTokens u s).filter (fun t => !STOPWORDS.contains t),
        t ≠ [] ∧ ∀ c ∈ t, isTokenChar c = true :=
      fun t ht => hgood t (List.mem_filter.mp ht).1
    have h2 : baseTokens u (joinSpace ((baseTokens u s).filter (fun t => !STOPWORDS.contains t)))
        = (baseTokens u s).filter (fun t => !STOPWORDS.contains t) :=
      baseTokens_joinSpace u hl hlsp hn hnsp hcm hcmsp hsub
    rw [h2]
    have h3 : ((baseTokens u s).filter (fun t => !STOPWORDS.contains t)).filter
        (fun t => !STOPWORDS.contains t)
        = (baseTokens u s).filter (fun t => !STOPWORDS.contains t) := by
      apply List.filter_eq_self.mpr
      intro t ht
      exact (List.mem_filter.mp ht).2
    rw [h3, hfe]
    simp

/-- Witness for C9 at a concrete input, with the trivial Unicode model. -/
theorem c9_normalize_idempotent_witness :
    normalizeQuery idUnicode (normalizeQuery idUnicode "  Dolor de la cabeza!! ".data)
      = normalizeQuery idUnicode "  Dolor de la cabeza!! ".data :=
  c9_normalize_idempotent idUnicode (fun _ _ => rfl) rfl (fun _ _ => rfl) rfl
    (fun _ _ => rfl) rfl "  Dolor de la cabeza!! ".data

/-! ### Selection logging (`icd10_selection.py`, `icd10_selection_service.py`) -/

/-- Characters allowed as the first character of the selection-code regex
`[A-Z0-9]`. -/
def isIcdHeadChar (c : Char) : Bool := ('A' ≤ c && c ≤ 'Z') || ('0' ≤ c && c ≤ '9')

/-- Characters allowed in the tail of the selection-code regex `[A-Z0-9\.]`. -/
def isIcdTailChar (c : Char) : Bool := isIcdHeadChar c || c = '.'

/-- Full match of the `_ICD10_CODE_RE` regex of `icd10_selection.py`. -/
def matchesSelectionRe (s : String) : Bool :=
  match s.data with
  | [] => false
  | c :: rest =>
    isIcdHeadChar c && decide (1 ≤ rest.length) && decide (rest.length ≤ 9) &&
      rest.all isIcdTailChar

/-- Errors surfaced by the selection service (`ICD10SelectionValidationError`
and `ICD10CodeNotFoundError`). -/
inductive SelectionError where
  | validation
  | codeNotFound
deriving DecidableEq

/-- Raw fields of a `POST /icd10/select` payload, before schema validation. -/
structure SelectionPayload where
  originalQuery : String
  normalizedQuery : String
  selectedIcd : String
  userId : Option String
  sessionId : Option String
deriving DecidableEq

/-- A validated `ICD10SelectionRequest`. -/
structure SelectionRequest where
  originalQuery : String
  normalizedQuery : String
  selectedIcd : String
  userId : Option String
  sessionId : Option String
deriving DecidableEq

/-- Model of the optional-field validator (strip, empty becomes `None`). -/
def stripOptional (o : Option String) : Option String :=
  match o with
  | none => none
  | some s => let c := stripS s; if c = "" then none else some c

/-- Model of the pydantic field validators of `ICD10SelectionRequest`. -/
def validateSelectionRequest (p : SelectionPayload) : Except SelectionError SelectionRequest :=
  if stripS p.originalQuery = "" then .error .validation
  else if stripS p.normalizedQuery = "" then .error .validation
  else if upperS (stripS p.selectedIcd) = "" then .error .validation
  else if !matchesSelectionRe (upperS (stripS p.selectedIcd)) then .error .validation
  else .ok ⟨stripS p.originalQuery, stripS p.normalizedQuery, upperS (stripS p.selectedIcd),
    stripOptional p.userId, stripOptional p.sessionId⟩

/-- A `clinical_search_logs` row as created by the selection repository (the
creation timestamp is an abstract clock value). -/
structure SearchLogRow where
  userId : Option String
  query : String
  normalizedQuery : String
  selectedTerm : String
  selectedIcd : String
  sessionId : Option String
  createdAt : ℕ
deriving DecidableEq

/-- Model of `ICD10SelectionResponse`. -/
structure SelectionResponse where
  success : Bool
  message : String
  selectedIcd : String
  timestamp : ℕ
deriving DecidableEq

/-- Model of `ICD10SelectionService.record_selection`: the store is a list of
log rows, `icd10Exists` models `ICD10SelectionRepository.icd10_exists`, and
the result carries the new store state on success. -/
def recordSelection (u : UnicodeModel) (icd10Exists : String → Bool)
    (store : List SearchLogRow) (now : ℕ) (p : SelectionPayload) :
    Except SelectionError (List SearchLogRow × SelectionResponse) :=
  match validateSelectionRequest p with
  | .error e => .error e
  | .ok req =>
    let originalQuery := stripS req.originalQuery
    let normalizedQuery : String := ⟨normalizeText u req.normalizedQuery.data⟩
    if normalizedQuery = "" then .error .validation
    else
      let selectedIcd := upperS (stripS req.selectedIcd)
      if !icd10Exists selectedIcd then .error .codeNotFound
      else
        let row : SearchLogRow :=
          ⟨req.userId, originalQuery, normalizedQuery, selectedIcd, selectedIcd,
            req.sessionId, now⟩
        .ok (store ++ [row], ⟨true, "ICD10 selection logged", selectedIcd, row.createdAt⟩)

instance {ε α : Type*} [DecidableEq ε] [DecidableEq α] : DecidableEq (Except ε α) := fun a b =>
  match a, b with
  | .error e, .error f =>
    if h : e = f then .isTrue (by rw [h]) else .isFalse (fun hh => h (by injection hh))
  | .error _, .ok _ => .isFalse (fun hh => Except.noConfusion hh)
  | .ok _, .error _ => .isFalse (fun hh => Except.noConfusion hh)
  | .ok x, .ok y =>
    if h : x = y then .isTrue (by rw [h]) else .isFalse (fun hh => h (by injection hh))

theorem validateSelectionRequest_error_iff (p : SelectionPayload) :
    validateSelectionRequest p = .error .validation ↔
      (stripS p.originalQuery = "" ∨ stripS p.normalizedQuery = "" ∨
        matchesSelectionRe (upperS (stripS p.selectedIcd)) = false) := by
  unfold validateSelectionRequest
  split_ifs with h1 h2 h3 h4
  · simp [h1]
  · simp [h2]
  · have : matchesSelectionRe (upperS (stripS p.selectedIcd)) = false := by
      rw [h3]; rfl
    simp [this]
  · simp only [Bool.not_eq_true', ] at h4
    simp [h4]
  · simp only [Bool.not_eq_true', Bool.not_eq_false] at h4
    simp [h1, h2, h4]

/-- Claim C6: recording an explicit selection validates the selected code
against the code regex after trimming and uppercasing, and the two query
fields against non-emptiness, raising the validation error otherwise; when
validation passes (including the service-level normalization check) it raises
the code-not-found error exactly when the uppercased code does not exist, and
otherwise appends one log row and returns success with the uppercased code and
the row creation timestamp. -/
theorem c6_selection_validation (u : UnicodeModel) (ex : String → Bool)
    (store : List SearchLogRow) (now : ℕ) (p : SelectionPayload) :
    ((stripS p.originalQuery = "" ∨ stripS p.normalizedQuery = "" ∨
        matchesSelectionRe (upperS (stripS p.selectedIcd)) = false) →
      recordSelection u ex store now p = .error .validation) ∧
    (∀ req, validateSelectionRequest p = .ok req →
      (⟨normalizeText u req.normalizedQuery.data⟩ : String) ≠ "" →
      ex (upperS (stripS req.selectedIcd)) = false →
      recordSelection u ex store now p = .error .codeNotFound) ∧
    (∀ req, validateSelectionRequest p = .ok req →
      (⟨normalizeText u req.normalizedQuery.data⟩ : String) ≠ "" →
      ex (upperS (stripS req.selectedIcd)) = true →
      recordSelection u ex store now p = .ok
        (store ++ [⟨req.userId, stripS req.originalQuery,
            ⟨normalizeText u req.normalizedQuery.data⟩,
            upperS (stripS req.selectedIcd), upperS (stripS req.selectedIcd),
            req.sessionId, now⟩],
          ⟨true, "ICD10 selection logged", upperS (stripS req.selectedIcd), now⟩)) := by
  refine ⟨?_, ?_, ?_⟩
  · intro h
    have hv := (validateSelectionRequest_error_iff p).mpr h
    unfold recordSelection
    rw [hv]
  · intro req hv hne hex
    unfold recordSelection
    rw [hv]
    simp only [hne, if_neg hne, hex]
    rfl
  · intro req hv hne hex
    unfold recordSelection
    rw [hv]
    simp only [if_neg hne, hex]
    rfl

/-- Witness for C6: a well-formed selection of an existing code succeeds and
appends exactly one row. -/
theorem c6_selection_validation_witness :
    recordSelection idUnicode (fun c => decide (c = "E11")) [] 5
        ⟨"dm2", "dm2", "e11", none, none⟩ =
      .ok ([⟨none, "dm2", "dm2", "E11", "E11", none, 5⟩],
        ⟨true, "ICD10 selection logged", "E11", 5⟩) := by
  have h := (c6_selection_validation idUnicode (fun c => decide (c = "E11")) [] 5
      ⟨"dm2", "dm2", "e11", none, none⟩).2.2
    ⟨"dm2", "dm2", "E11", none, none⟩ (by decide) (by decide) (by decide)
  exact h.trans (by decide)

/-- Claim C10: a payload whose normalized query is non-empty but normalizes to
the empty string fails with the validation error, for every code-existence
predicate (so the existence check is not consulted) and with no row inserted. -/
theorem c10_normalization_guard (u : UnicodeModel) (store : List SearchLogRow)
    (now : ℕ) (p : SelectionPayload) (req : SelectionRequest)
    (hv : validateSelectionRequest p = .ok req)
    (hempty : (⟨normalizeText u req.normalizedQuery.data⟩ : String) = "") :
    ∀ ex : String → Bool, recordSelection u ex store now p = .error .validation := by
  intro ex
  unfold recordSelection
  rw [hv]
  simp only [hempty]
  rfl

/-- Witness for C10: the payload with normalized query made of punctuation
only is rejected by the normalization guard even though the code exists. -/
theorem c10_normalization_guard_witness :
    recordSelection idUnicode (fun _ => true) [] 0 ⟨"x", "!!!", "E11", none, none⟩ =
      .error .validation :=
  c10_normalization_guard idUnicode [] 0 ⟨"x", "!!!", "E11", none, none⟩
    ⟨"x", "!!!", "E11", none, none⟩ (by decide) (by decide) (fun _ => true)

/-! ### Stable sorting by a key (model of Python `list.sort` and `sorted`) -/

/-- Key-based comparison relation. -/
def keyLE {α β : Type*} [LinearOrder β] (key : α → β) (a b : α) : Prop := key a ≤ key b

instance keyLEDec {α β : Type*} [LinearOrder β] (key : α → β) : DecidableRel (keyLE key) :=
  fun a b => inferInstanceAs (Decidable (key a ≤ key b))

/-- Stable sort by a key into a linear order; insertion sort is stable, which
matches the stability guarantee of Python sorting. -/
def sortByKey {α β : Type*} [LinearOrder β] (key : α → β) (l : List α) : List α :=
  l.insertionSort (keyLE key)

theorem sortByKey_perm {α β : Type*} [LinearOrder β] (key : α → β) (l : List α) :
    (sortByKey key l).Perm l :=
  List.perm_insertionSort _ l

theorem sortByKey_sorted {α β : Type*} [LinearOrder β] (key : α → β) (l : List α) :
    (sortByKey key l).Sorted (keyLE key) := by
  letI : IsTotal α (keyLE key) := ⟨fun a b => le_total (key a) (key b)⟩
  letI : IsTrans α (keyLE key) := ⟨fun a b c hab hbc => le_trans hab hbc⟩
  exact List.sorted_insertionSort (keyLE key) l

/-! ### Ranking engine (`ClinicalSearchEngine._rank`, `search_config.py`) -/

/-- Half-to-even integer rounding on rationals (the rounding mode of Python
`round`). -/
def roundHalfEven (q : ℚ) : ℤ :=
  if q - ⌊q⌋ < 1/2 then ⌊q⌋
  else if 1/2 < q - ⌊q⌋ then ⌊q⌋ + 1
  else if ⌊q⌋ % 2 = 0 then ⌊q⌋ else ⌊q⌋ + 1

/-- Model of Python `round(x, 4)`. -/
def roundQ4 (q : ℚ) : ℚ := (roundHalfEven (q * 10000) : ℚ) / 10000

/-- The tunable `RankingWeights` of `search_config.py`. -/
structure RankingWeights where
  similarity : ℚ
  exactMatch : ℚ
  prefixMatch : ℚ
  descriptionMatch : ℚ
  priorityBoost : ℚ
  intentBonus : ℚ
  tagMatch : ℚ
deriving DecidableEq

/-- The environment-default ranking weights. -/
def defaultRankingWeights : RankingWeights :=
  { similarity := 3/10, exactMatch := 100, prefixMatch := 50, descriptionMatch := 20,
    priorityBoost := 10, intentBonus := 15, tagMatch := 5 }

/-- A candidate row as returned by `ICD10ExtendedRepository.search_candidates`. -/
structure ExtendedICD10Candidate where
  code : String
  description : String
  descriptionNormalized : String
  similarity : ℚ
  priority : ℚ
  tags : String
  exactCodeMatch : Bool
  prefixMatch : Bool
  descriptionMatch : Bool
deriving DecidableEq

/-- The `MatchFeatures` record of the engine (the explanation string of the
source, a display artifact, is not modelled). -/
structure MatchFeatures where
  exactCode : Bool
  prefixCode : Bool
  descriptionMatch : Bool
  trigramSimilarity : ℚ
  priority : ℚ
  intentAligned : Bool
  tagMatched : Bool
deriving DecidableEq

/-- The `ClinicalSearchResult` record of the engine. -/
structure ClinicalSearchResult where
  code : String
  label : String
  score : ℚ
  source : String
  matchFeatures : MatchFeatures
deriving DecidableEq

/-- The intent-alignment test of `_rank`: Python truthiness of `intent` and
`c.tags`, then substring containment of the intent in the lowercased tags. -/
def intentAlignedB (intent : Option String) (tags : String) : Bool :=
  match intent with
  | none => false
  | some s => decide (s ≠ "") && decide (tags ≠ "") && substrB (lowerS tags) s

/-- The weighted score accumulated by `_rank` before rounding. -/
def scoreOf (w : RankingWeights) (intent : Option String) (c : ExtendedICD10Candidate) : ℚ :=
  (if c.exactCodeMatch then w.exactMatch else 0)
    + (if c.prefixMatch then w.prefixMatch else 0)
    + (if c.descriptionMatch then w.descriptionMatch else 0)
    + c.similarity * w.similarity * 100
    + c.priority * w.priorityBoost
    + (if intentAlignedB intent c.tags then w.intentBonus else 0)
    + (if c.tags ≠ "" then w.tagMatch else 0)

/-- The `ClinicalSearchResult` built by `_rank` for one candidate. -/
def toResult (w : RankingWeights) (intent : Option String) (c : ExtendedICD10Candidate) :
    ClinicalSearchResult :=
  { code := c.code, label := c.description, score := roundQ4 (scoreOf w intent c),
    source := "icd10_extended",
    matchFeatures :=
      { exactCode := c.exactCodeMatch, prefixCode := c.prefixMatch,
        descriptionMatch := c.descriptionMatch,
        trigramSimilarity := roundQ4 c.similarity, priority := c.priority,
        intentAligned := intentAlignedB intent c.tags,
        tagMatched := decide (c.tags ≠ "") } }

/-- The sort key of `_rank`: the Python tuple `(-score, code)` under the
lexicographic order. -/
def rankKey (r : ClinicalSearchResult) : ℚ ×ₗ String := toLex (-r.score, r.code)

/-- Model of `ClinicalSearchEngine._rank` (the unused `is_code_query` local of
the source is dropped; it does not influence the result). -/
def rank (w : RankingWeights) (candidates : List ExtendedICD10Candidate)
    (_query : String) (intent : Option String) : List ClinicalSearchResult :=
  sortByKey rankKey (candidates.map (toResult w intent))

/-- Spec-side intent condition of claim C1: the intent is non-null and appears
in the candidate's lowercased tags. -/
def specIntentHit (intent : Option String) (tags : String) : Bool :=
  match intent with
  | none => false
  | some s => substrB (lowerS tags) s

theorem intentAlignedB_eq_specIntentHit {intent : Option String} (hi : intent ≠ some "")
    (tags : String) : intentAlignedB intent tags = specIntentHit intent tags := by
  cases intent with
  | none => rfl
  | some s =>
    have hs : s ≠ "" := fun h => hi (by rw [h])
    by_cases ht : tags = ""
    · subst ht
      have : substrB (lowerS "") s = false := by
        unfold substrB lowerS
        simp only [decide_eq_false_iff_not]
        intro hinf
        have := List.eq_nil_of_infix_nil hinf
        exact hs (by cases s with | mk d => simp at this; rw [this])
      simp [intentAlignedB, specIntentHit, this]
    · simp [intentAlignedB, specIntentHit, hs, ht]

theorem bool_weight_eq {w : ℚ} (b : Bool) :
    (if b then w else 0) = w * (if b then (1 : ℚ) else 0) := by
  cases b <;> simp

/-- Counterexample input for claim C1: a candidate whose similarity has more
than four decimal places. -/
def c1CandidateCex : ExtendedICD10Candidate :=
  { code := "A00", description := "x", descriptionNormalized := "x", similarity := 1/7,
    priority := 0, tags := "", exactCodeMatch := false, prefixMatch := false,
    descriptionMatch := false }

/-- Counterexample to claim C1 as stated: the score assigned by `_rank` is the
weighted sum rounded to four decimal places, not the weighted sum itself; at
similarity 1/7 the assigned score is 4.2857 while the claimed formula gives
30/7. -/
theorem c1_rank_counterexample :
    (rank defaultRankingWeights [c1CandidateCex] "dolor" none).map
        (fun r => r.score) = [42857/10000] ∧
      (42857/10000 : ℚ) ≠ defaultRankingWeights.similarity * 100 * c1CandidateCex.similarity := by
  have h1 : scoreOf defaultRankingWeights none c1CandidateCex = 30/7 := by
    unfold scoreOf c1CandidateCex defaultRankingWeights intentAlignedB
    norm_num
  have hf : ⌊(300000 : ℚ)/7⌋ = 42857 := by
    rw [Int.floor_eq_iff]
    constructor <;> norm_num
  have h2 : roundQ4 (30/7) = 42857/10000 := by
    unfold roundQ4 roundHalfEven
    rw [show ((30 : ℚ)/7) * 10000 = 300000/7 by norm_num, hf]
    norm_num
  constructor
  · simp only [rank, sortByKey, List.insertionSort, List.orderedInsert, List.map_cons,
      List.map_nil, toResult]
    rw [h1, h2]
  · simp only [defaultRankingWeights, c1CandidateCex]
    norm_num

/-- Claim C1 (amended): for every candidate list, query and detected intent,
`_rank` with the default weights assigns each candidate the claimed weighted
sum rounded half-to-even to four decimal places, and returns the scored
candidates sorted by (rounded) score descending, then code ascending. -/
theorem c1_rank_amended (cands : List ExtendedICD10Candidate) (query : String)
    (intent : Option String) (hi : intent ≠ some "") :
    (rank defaultRankingWeights cands query intent).Perm
        (cands.map (toResult defaultRankingWeights intent)) ∧
      (rank defaultRankingWeights cands query intent).Sorted
        (fun r1 r2 => r2.score < r1.score ∨ (r1.score = r2.score ∧ r1.code ≤ r2.code)) ∧
      (∀ c ∈ cands, (toResult defaultRankingWeights intent c).score =
        roundQ4 (100 * (if c.exactCodeMatch then (1 : ℚ) else 0)
          + 50 * (if c.prefixMatch then (1 : ℚ) else 0)
          + 20 * (if c.descriptionMatch then (1 : ℚ) else 0)
          + (3/10) * 100 * c.similarity
          + 10 * c.priority
          + 15 * (if specIntentHit intent c.tags then (1 : ℚ) else 0)
          + 5 * (if c.tags ≠ "" then (1 : ℚ) else 0))) := by
  refine ⟨sortByKey_perm _ _, ?_, ?_⟩
  · have hs := sortByKey_sorted rankKey (cands.map (toResult defaultRankingWeights intent))
    apply List.Pairwise.imp ?_ hs
    intro a b hab
    have := (Prod.Lex.le_iff (-a.score, a.code) (-b.score, b.code)).mp hab
    rcases this with h | ⟨h1, h2⟩
    · exact Or.inl (by simpa using h)
    · exact Or.inr ⟨neg_inj.mp h1, h2⟩
  · intro c _
    show roundQ4 (scoreOf defaultRankingWeights intent c) = _
    congr 1
    unfold scoreOf
    rw [intentAlignedB_eq_specIntentHit hi]
    rw [bool_weight_eq c.exactCodeMatch, bool_weight_eq c.prefixMatch,
      bool_weight_eq c.descriptionMatch, bool_weight_eq (specIntentHit intent c.tags)]
    by_cases ht : c.tags = "" <;> simp [ht, defaultRankingWeights] <;> ring

/-- Witness for the amended claim C1 at a concrete candidate list. -/
theorem c1_rank_amended_witness :
    (rank defaultRankingWeights [c1CandidateCex] "dolor" none).Perm
      ([c1CandidateCex].map (toResult defaultRankingWeights none)) :=
  (c1_rank_amended [c1CandidateCex] "dolor" none (by decide)).1

/-! ### Anatomical boost (`anatomical_boost_service.py`) -/

/-- An in-memory result dict as consumed by `apply_anatomical_boost`; only the
keys the function reads or writes are modelled, plus the score for claim C4. -/
structure BoostResult where
  code : String
  score : ℚ
  similarity : ℚ
  tags : String
deriving DecidableEq

/-- The per-result mutation of `apply_anatomical_boost`: add 0.15 to the
similarity of a result whose lowercased tags contain the detected system. -/
def boostOne (s : String) (r : BoostResult) : BoostResult :=
  if substrB (lowerS r.tags) s then { r with similarity := r.similarity + 3/20 } else r

/-- Model of `apply_anatomical_boost`. The ontology lookup (a store query) is
abstracted into `detected`, the `system` column of the first match with truthy
system and term, `none` when there is no such match. -/
def applyAnatomicalBoost : Option String → List BoostResult → List BoostResult
  | none, results => results
  | some sys, results =>
    if lowerS (stripS sys) = "" then results
    else if results.any (fun r => substrB (lowerS r.tags) (lowerS (stripS sys))) then
      sortByKey (fun r => -r.similarity) (results.map (boostOne (lowerS (stripS sys))))
    else results

/-- Counterexample inputs for claim C4: a high-score low-similarity result
without the detected tag, and a low-score higher-similarity result with it. -/
def c4r1 : BoostResult := { code := "A00", score := 100, similarity := 1/10, tags := "x" }

/-- Second counterexample result for claim C4. -/
def c4r2 : BoostResult :=
  { code := "B00", score := 5, similarity := 1/2, tags := "respiratorio" }

/-- Counterexample to claim C4 as stated: after the boost the list is
re-sorted by the boosted similarity value, not by the similarity-adjusted
score; here the boosted result with score 5 is placed before the unboosted
result with score 100, so the output is not sorted by score descending. -/
theorem c4_boost_counterexample :
    applyAnatomicalBoost (some "respiratorio") [c4r1, c4r2] =
        [{ code := "B00", score := 5, similarity := 13/20, tags := "respiratorio" }, c4r1] ∧
      ¬ (applyAnatomicalBoost (some "respiratorio") [c4r1, c4r2]).Sorted
          (fun a b => b.score ≤ a.score) := by
  have hs0 : lowerS (stripS "respiratorio") = "respiratorio" := by decide
  have hs1 : substrB (lowerS "x") "respiratorio" = false := by decide
  have hs2 : substrB (lowerS "respiratorio") "respiratorio" = true := by decide
  have hb1 : boostOne "respiratorio" c4r1 = c4r1 := by
    unfold boostOne c4r1
    rw [show (({ code := "A00", score := 100, similarity := 1/10, tags := "x" } :
      BoostResult)).tags = "x" from rfl, hs1]
    simp
  have hb2 : boostOne "respiratorio" c4r2 =
      { code := "B00", score := 5, similarity := 13/20, tags := "respiratorio" } := by
    unfold boostOne c4r2
    simp only [hs2, if_true]
    norm_num
  have key : applyAnatomicalBoost (some "respiratorio") [c4r1, c4r2] =
      [{ code := "B00", score := 5, similarity := 13/20, tags := "respiratorio" }, c4r1] := by
    show (if lowerS (stripS "respiratorio") = "" then [c4r1, c4r2]
      else if [c4r1, c4r2].any
          (fun r => substrB (lowerS r.tags) (lowerS (stripS "respiratorio"))) then
        sortByKey (fun r => -r.similarity)
          ([c4r1, c4r2].map (boostOne (lowerS (stripS "respiratorio"))))
      else [c4r1, c4r2]) = _
    rw [hs0]
    rw [if_neg (by decide), if_pos (by simp [c4r1, c4r2, hs1, hs2])]
    simp only [List.map_cons, List.map_nil, hb1, hb2]
    unfold sortByKey
    simp only [List.insertionSort, List.orderedInsert]
    rw [if_neg (by unfold keyLE c4r1; norm_num)]
  refine ⟨key, ?_⟩
  rw [key]
  intro hsorted
  have := List.rel_of_sorted_cons hsorted c4r1 (List.mem_singleton.mpr rfl)
  simp only [c4r1] at this
  norm_num at this

/-- Claim C4 (amended): with a detected system, the boost adds 0.15 to the
similarity of exactly the results whose lowercased tags contain the system
and re-sorts the whole list by the boosted similarity value descending (not
by score); with no detected system, an empty normalized system, or no tagged
result, the list is returned unchanged. -/
theorem c4_boost_amended (results : List BoostResult) :
    (applyAnatomicalBoost none results = results) ∧
      (∀ sys, lowerS (stripS sys) = "" → applyAnatomicalBoost (some sys) results = results) ∧
      (∀ sys, (∀ r ∈ results, substrB (lowerS r.tags) (lowerS (stripS sys)) = false) →
        applyAnatomicalBoost (some sys) results = results) ∧
      (∀ sys, lowerS (stripS sys) ≠ "" →
        (∃ r ∈ results, substrB (lowerS r.tags) (lowerS (stripS sys)) = true) →
        (applyAnatomicalBoost (some sys) results).Perm
            (results.map (boostOne (lowerS (stripS sys)))) ∧
          (applyAnatomicalBoost (some sys) results).Sorted
            (fun a b => b.similarity ≤ a.similarity) ∧
          (∀ r ∈ results, boostOne (lowerS (stripS sys)) r =
            if substrB (lowerS r.tags) (lowerS (stripS sys)) = true then
              { r with similarity := r.similarity + 3/20 } else r)) := by
  have hshape : ∀ sys, applyAnatomicalBoost (some sys) results =
      (if lowerS (stripS sys) = "" then results
        else if results.any (fun r => substrB (lowerS r.tags) (lowerS (stripS sys))) then
          sortByKey (fun r => -r.similarity) (results.map (boostOne (lowerS (stripS sys))))
        else results) := fun _ => rfl
  refine ⟨rfl, ?_, ?_, ?_⟩
  · intro sys h
    rw [hshape sys, if_pos h]
  · intro sys h
    rw [hshape sys]
    by_cases hz : lowerS (stripS sys) = ""
    · rw [if_pos hz]
    · rw [if_neg hz, if_neg]
      rw [List.any_eq_true]
      rintro ⟨r, hr, hmatch⟩
      rw [h r hr] at hmatch
      exact Bool.false_ne_true hmatch
  · intro sys hz ⟨r, hr, hmatch⟩
    have hany : results.any (fun r => substrB (lowerS r.tags) (lowerS (stripS sys))) = true :=
      List.any_eq_true.mpr ⟨r, hr, hmatch⟩
    have heq : applyAnatomicalBoost (some sys) results =
        sortByKey (fun r => -r.similarity) (results.map (boostOne (lowerS (stripS sys)))) := by
      rw [hshape sys, if_neg hz, if_pos hany]
    refine ⟨?_, ?_, ?_⟩
    · rw [heq]; exact sortByKey_perm _ _
    · rw [heq]
      have hs := sortByKey_sorted (fun r : BoostResult => -r.similarity)
        (results.map (boostOne (lowerS (stripS sys))))
      apply List.Pairwise.imp ?_ hs
      intro a b hab
      unfold keyLE at hab
      exact neg_le_neg_iff.mp hab
    · intro x _
      unfold boostOne
      rcases h : substrB (lowerS x.tags) (lowerS (stripS sys)) <;> simp [h]

/-- Witness for the amended claim C4 at the concrete counterexample inputs. -/
theorem c4_boost_amended_witness :
    (applyAnatomicalBoost (some "respiratorio") [c4r1, c4r2]).Perm
      ([c4r1, c4r2].map (boostOne (lowerS (stripS "respiratorio")))) :=
  ((c4_boost_amended [c4r1, c4r2]).2.2.2 "respiratorio" (by decide)
    ⟨c4r2, by simp, by decide⟩).1

/-! ### Extended repository (`icd10_extended_repository.py`) -/

/-- ASCII letter class `[A-Za-z]`. -/
def isAsciiAlpha (c : Char) : Bool := ('A' ≤ c && c ≤ 'Z') || ('a' ≤ c && c ≤ 'z')

/-- ASCII digit class `[0-9]`. -/
def isAsciiDigit (c : Char) : Bool := '0' ≤ c && c ≤ '9'

/-- Full match of the repository regex `ICD_CODE_QUERY_RE`. -/
def matchesRepoCodeRe (s : String) : Bool :=
  match s.data with
  | a :: b :: rest => isAsciiAlpha a && isAsciiDigit b &&
      rest.all (fun c => isAsciiDigit c || isAsciiAlpha c || c = '.')
  | _ => false

/-- Full match of the engine regex `ICD_CODE_RE`, that is
a letter, two to four digits, optionally a dot and up to two digits. -/
def matchesIcdQueryRe (s : String) : Bool :=
  match s.data with
  | [] => false
  | a :: rest =>
    isAsciiAlpha a &&
      decide (2 ≤ (rest.takeWhile isAsciiDigit).length) &&
      decide ((rest.takeWhile isAsciiDigit).length ≤ 4) &&
      (match rest.dropWhile isAsciiDigit with
        | [] => true
        | '.' :: frac => frac.all isAsciiDigit && decide (frac.length ≤ 2)
        | _ => false)

/-- Model of `value.strip().replace(" ", "")`. -/
def compactNoSpaces (s : String) : String := ⟨(pyStrip s.data).filter (fun c => c ≠ ' ')⟩

/-- Test of the engine regex fragment matched with `re.match` (a letter
followed by a digit at the start). -/
def startsAlphaDigit (s : String) : Bool :=
  match s.data with
  | a :: b :: _ => isAsciiAlpha a && isAsciiDigit b
  | [_] => false
  | [] => false

/-- Model of `ClinicalSearchEngine._is_code_query`. -/
def isCodeQuery (s : String) : Bool :=
  matchesIcdQueryRe (compactNoSpaces s) || startsAlphaDigit (compactNoSpaces s)

/-- Model of `ClinicalSearchEngine._normalize_code_query`. -/
def normalizeCodeQuery (s : String) : String :=
  ⟨((pyStrip s.data).map Char.toUpper).filter (fun c => c ≠ ' ')⟩

/-- A raw `icd10_extended` row (nullable columns are options, `priority` is
kept in its raw textual form as the store casts it to text). -/
structure IcdRow where
  code : String
  description : String
  descriptionNormalized : Option String
  searchText : Option String
  priority : Option String
  tags : Option String
deriving DecidableEq

/-- SQL `coalesce(col, '')`. -/
def coalesce (o : Option String) : String := o.getD ""

/-- The coalesced `description_normalized` column. -/
def rowDn (r : IcdRow) : String := coalesce r.descriptionNormalized

/-- The coalesced `search_text` column. -/
def rowSt (r : IcdRow) : String := coalesce r.searchText

/-- The coalesced `tags` column. -/
def rowTags (r : IcdRow) : String := coalesce r.tags

/-- SQL `trim` (strips the space character). -/
def sqlTrim (s : String) : String :=
  ⟨((s.data.dropWhile (fun c => c = ' ')).reverse.dropWhile (fun c => c = ' ')).reverse⟩

/-- Full match of the numeric-literal pattern used by `_priority_as_float`. -/
def isNumericLit (s : String) : Bool :=
  match s.data.takeWhile isAsciiDigit, s.data.dropWhile isAsciiDigit with
  | [], _ => false
  | _ :: _, [] => true
  | _ :: _, '.' :: frac => !frac.isEmpty && frac.all isAsciiDigit
  | _ :: _, _ :: _ => false

/-- Value of a digit run. -/
def digitsToNat (l : List Char) : ℕ := l.foldl (fun a c => 10 * a + (c.toNat - 48)) 0

/-- Rational value of a matched numeric literal. -/
def numericValue (s : String) : ℚ :=
  match s.data.dropWhile isAsciiDigit with
  | '.' :: frac =>
    (digitsToNat (s.data.takeWhile isAsciiDigit) : ℚ) + (digitsToNat frac : ℚ) / (10 : ℚ) ^ frac.length
  | _ => (digitsToNat (s.data.takeWhile isAsciiDigit) : ℚ)

/-- Model of `ICD10ExtendedRepository._priority_as_float`. -/
def priorityAsFloat (p : Option String) : ℚ :=
  if lowerS (sqlTrim (coalesce p)) = "" then 0
  else if lowerS (sqlTrim (coalesce p)) = "high" then 1
  else if lowerS (sqlTrim (coalesce p)) = "medium" then 3/5
  else if lowerS (sqlTrim (coalesce p)) = "low" then 1/5
  else if isNumericLit (lowerS (sqlTrim (coalesce p))) then numericValue (lowerS (sqlTrim (coalesce p)))
  else 0

/-- The compacted code column
`replace(replace(upper(code), '.', ''), ' ', '')`. -/
def compactCode (s : String) : String :=
  ⟨((s.data.map Char.toUpper).filter (fun c => c ≠ '.')).filter (fun c => c ≠ ' ')⟩

/-- The bind parameter `compact_code_query`
(`compact_query.replace(".", "").upper()`). -/
def compactCodeQueryOf (query : String) : String :=
  upperS ⟨(compactNoSpaces query).data.filter (fun c => c ≠ '.')⟩

/-- The scoring tokens of `search_candidates`: whitespace tokens, the trailing
token dropped when it is short and the query does not end with a space, then
filtered to length at least four and capped at five. -/
def scoringTokens (query : String) : List String :=
  let rawTokens := splitWS query.data
  let incompleteLast := decide (query ≠ "") && !(decide (query.data.getLast? = some ' ')) &&
    !rawTokens.isEmpty && decide ((rawTokens.getLast?.getD []).length < 4)
  (((if incompleteLast then rawTokens.dropLast else rawTokens).filter
    (fun t => 4 ≤ t.length)).take 5).map (fun t => (⟨t⟩ : String))

/-- The `use_similarity` flag of `search_candidates`. -/
def repoUseSimilarity (query : String) (queryIsCode forceNoSimilarity : Bool) : Bool :=
  decide (3 ≤ query.length) && !queryIsCode && !forceNoSimilarity

/-- The `effective_min_hits` computation of `search_candidates`. -/
def effectiveMinHits (tokenCount : ℕ) (minHits : Option ℤ) : ℕ :=
  if 2 ≤ tokenCount then
    match minHits with
    | some m => (max 1 (min m (tokenCount : ℤ))).toNat
    | none => 2
  else if tokenCount = 1 then 1 else 0

/-- The raw trigram score `greatest(similarity(desc, q), similarity(txt, q))`;
the store function is the abstract `sim`. -/
def rowSimRaw (sim : String → String → ℚ) (query : String) (r : IcdRow) : ℚ :=
  max (sim (rowDn r) query) (sim (rowSt r) query)

/-- The guarded similarity score column (`0.0` when similarity is disabled). -/
def rowSimScore (sim : String → String → ℚ) (useSim : Bool) (query : String) (r : IcdRow) : ℚ :=
  if useSim then rowSimRaw sim query r else 0

/-- The guarded similarity admission test (`False` when disabled). -/
def rowSimMatch (sim : String → String → ℚ) (useSim : Bool) (threshold : ℚ)
    (query : String) (r : IcdRow) : Bool :=
  if useSim then decide (threshold ≤ rowSimRaw sim query r) else false

/-- The substring admission test `desc_match`. -/
def rowDescMatch (query : String) (r : IcdRow) : Bool :=
  ilikeB (rowDn r) query || ilikeB (rowSt r) query

/-- The `token_hit_count` column: how many scoring tokens appear in
`description_normalized` or `search_text`. -/
def rowTokenHits (tokens : List String) (r : IcdRow) : ℕ :=
  (tokens.filter (fun tk => ilikeB (rowDn r) tk || ilikeB (rowSt r) tk)).length

/-- The `exact_code_match` expression (bound to `False` for natural-language
queries). -/
def rowExact (ccq : String) (queryIsCode : Bool) (r : IcdRow) : Bool :=
  if queryIsCode then decide (compactCode r.code = ccq) else false

/-- The `prefix_match` expression (bound to `False` for natural-language
queries). -/
def rowPrefixB (ccq : String) (queryIsCode : Bool) (r : IcdRow) : Bool :=
  if queryIsCode then (compactCode r.code).startsWith ccq else false

/-- The WHERE clause of the primary retrieval statement. -/
def admitRow (sim : String → String → ℚ) (threshold : ℚ) (query : String)
    (tokens : List String) (effMin : ℕ) (ccq : String) (queryIsCode useSim : Bool)
    (r : IcdRow) : Bool :=
  if queryIsCode then rowExact ccq queryIsCode r || rowPrefixB ccq queryIsCode r
  else if 2 ≤ tokens.length then
    rowDescMatch query r || decide (effMin ≤ rowTokenHits tokens r) ||
      (rowSimMatch sim useSim threshold query r && decide (effMin ≤ rowTokenHits tokens r))
  else rowDescMatch query r || rowSimMatch sim useSim threshold query r

/-- The tag filter (exclusionary, per the observed behavior). -/
def tagFilterOk (tagsFilter : List String) (r : IcdRow) : Bool :=
  tagsFilter.isEmpty || tagsFilter.any (fun tag => ilikeB (rowTags r) tag)

/-- SQL boolean-to-float coercion `_bool_as_float`. -/
def bq (b : Bool) : ℚ := if b then 1 else 0

/-- The `code_score` ordering expression. -/
def rowCodeScore (ccq : String) (queryIsCode : Bool) (r : IcdRow) : ℚ :=
  3 * bq (rowExact ccq queryIsCode r) + 2 * bq (rowPrefixB ccq queryIsCode r)
    + (1/10) * priorityAsFloat r.priority

/-- The `text_score` ordering expression. -/
def rowTextScore (sim : String → String → ℚ) (useSim : Bool) (query : String)
    (tokens : List String) (ccq : String) (queryIsCode : Bool) (r : IcdRow) : ℚ :=
  3 * bq (rowExact ccq queryIsCode r) + 2 * bq (rowPrefixB ccq queryIsCode r)
    + (3/2) * bq (rowDescMatch query r) + (4/5) * (rowTokenHits tokens r : ℚ)
    + rowSimScore sim useSim query r + (1/10) * priorityAsFloat r.priority

/-- The candidate DTO built from a selected row. -/
def toCandidate (sim : String → String → ℚ) (useSim : Bool) (query ccq : String)
    (queryIsCode : Bool) (r : IcdRow) : ExtendedICD10Candidate :=
  { code := r.code, description := r.description, descriptionNormalized := rowDn r,
    similarity := rowSimScore sim useSim query r, priority := priorityAsFloat r.priority,
    tags := rowTags r, exactCodeMatch := rowExact ccq queryIsCode r,
    prefixMatch := rowPrefixB ccq queryIsCode r, descriptionMatch := rowDescMatch query r }

/-- The primary retrieval statement of
`ICD10ExtendedRepository.search_candidates` evaluated over an in-memory table:
filter by the WHERE clause and the optional tag filter, order by the branch
score descending then code ascending, limit, and map rows to candidates. -/
def searchCandidates (sim : String → String → ℚ) (threshold : ℚ) (table : List IcdRow)
    (query : String) (lim : ℕ) (tagsFilter : List String)
    (queryIsCodeArg forceNoSimilarity : Bool) (minHits : Option ℤ) :
    List ExtendedICD10Candidate :=
  if query = "" then []
  else
    let queryIsCode := queryIsCodeArg || matchesRepoCodeRe (compactNoSpaces query)
    let tokens := if queryIsCode then [] else scoringTokens query
    let effMin := effectiveMinHits tokens.length minHits
    let ccq := compactCodeQueryOf query
    let useSim := repoUseSimilarity query queryIsCode forceNoSimilarity
    let admitted := table.filter (fun r =>
      admitRow sim threshold query tokens effMin ccq queryIsCode useSim r &&
        tagFilterOk tagsFilter r)
    let ordered :=
      if queryIsCode then
        sortByKey (fun r => toLex (-(rowCodeScore ccq queryIsCode r), r.code)) admitted
      else
        sortByKey (fun r =>
          toLex (-(rowTextScore sim useSim query tokens ccq queryIsCode r), r.code)) admitted
    (ordered.take lim).map (toCandidate sim useSim query ccq queryIsCode)

/-- The code-only fallback statement of `search_candidates`: exact-or-prefix
on the compacted code, similarity pinned to zero, ordered by exact desc,
prefix desc, priority desc, code asc. -/
def fallbackCandidates (table : List IcdRow) (query : String) (lim : ℕ) :
    List ExtendedICD10Candidate :=
  let ccq := compactCodeQueryOf query
  let admitted := table.filter (fun r =>
    decide (compactCode r.code = ccq) || (compactCode r.code).startsWith ccq)
  let ordered := sortByKey (fun r =>
    toLex (-(bq (decide (compactCode r.code = ccq))),
      toLex (-(bq ((compactCode r.code).startsWith ccq)),
        toLex (-(priorityAsFloat r.priority), r.code)))) admitted
  (ordered.take lim).map (fun r =>
    { code := r.code, description := r.description, descriptionNormalized := rowDn r,
      similarity := 0, priority := priorityAsFloat r.priority, tags := rowTags r,
      exactCodeMatch := decide (compactCode r.code = ccq),
      prefixMatch := (compactCode r.code).startsWith ccq, descriptionMatch := false })

/-- `search_candidates` with its failure handling: store failures are modelled
as outcome flags; a failing primary statement falls back to the code-only
statement, and a failing fallback yields the empty list. The function is
total: no error escapes to the caller. -/
def searchCandidatesTotal (primaryFails fallbackFails : Bool)
    (sim : String → String → ℚ) (threshold : ℚ) (table : List IcdRow) (query : String)
    (lim : ℕ) (tagsFilter : List String) (queryIsCodeArg forceNoSimilarity : Bool)
    (minHits : Option ℤ) : List ExtendedICD10Candidate :=
  if query = "" then []
  else if !primaryFails then
    searchCandidates sim threshold table query lim tagsFilter queryIsCodeArg
      forceNoSimilarity minHits
  else if fallbackFails then []
  else fallbackCandidates table query lim

theorem scoringTokens_eq (query : String) :
    scoringTokens query =
      (((splitWS query.data).filter (fun t => 4 ≤ t.length)).take 5).map
        (fun t => (⟨t⟩ : String)) := by
  unfold scoringTokens
  cases hcond : (decide (query ≠ "") && !(decide (query.data.getLast? = some ' ')) &&
      !(splitWS query.data).isEmpty &&
      decide (((splitWS query.data).getLast?.getD []).length < 4)) with
  | false => simp only [hcond, Bool.false_eq_true, if_false]
  | true =>
    simp only [hcond, if_true]
    have hconds := hcond
    simp only [Bool.and_eq_true, Bool.not_eq_true', decide_eq_true_eq,
      List.isEmpty_eq_false] at hconds
    obtain ⟨⟨⟨-, -⟩, hne⟩, hlen⟩ := hconds
    have hsplit : (splitWS query.data).dropLast ++ [(splitWS query.data).getLast hne]
        = splitWS query.data := List.dropLast_concat_getLast hne
    have hgd : (splitWS query.data).getLast?.getD [] = (splitWS query.data).getLast hne := by
      rw [List.getLast?_eq_getLast _ hne]
      rfl
    rw [hgd] at hlen
    have hplast : (fun t : List Char => decide (4 ≤ t.length))
        ((splitWS query.data).getLast hne) = false := by
      simp only [decide_eq_false_iff_not]
      omega
    conv_rhs => rw [← hsplit]
    rw [List.filter_append]
    simp only [List.filter_cons, hplast, Bool.false_eq_true, if_false, List.filter_nil,
      List.append_nil]

/-- Claim C2: for a natural-language query (one the repository does not
reclassify as a code), the admission predicate of the primary retrieval is:
with two or more scoring tokens, description match, or token hits reaching the
(default 2, relaxable to 1) minimum, or similarity above threshold together
with the token-hit gate; with one or zero scoring tokens, description match or
similarity above threshold — where the similarity signal is the guarded
similarity column that is zero when similarity is disabled. The scoring
tokens are exactly the whitespace tokens of length at least four, capped at
five. -/
theorem c2_admission (sim : String → String → ℚ) (threshold : ℚ) (hthr : 0 < threshold)
    (query : String) (minHits : Option ℤ) (hmh : minHits = none ∨ minHits = some 1)
    (force : Bool) (hforce : force = false) (r : IcdRow) :
    scoringTokens query =
        (((splitWS query.data).filter (fun t => 4 ≤ t.length)).take 5).map
          (fun t => (⟨t⟩ : String)) ∧
      (2 ≤ (scoringTokens query).length →
        admitRow sim threshold query (scoringTokens query)
            (effectiveMinHits (scoringTokens query).length minHits)
            (compactCodeQueryOf query) false (repoUseSimilarity query false force) r =
          (rowDescMatch query r ||
            decide ((if minHits = none then 2 else 1) ≤ rowTokenHits (scoringTokens query) r) ||
            (decide (threshold ≤ rowSimScore sim (repoUseSimilarity query false force) query r) &&
              decide ((if minHits = none then 2 else 1) ≤ rowTokenHits (scoringTokens query) r)))) ∧
      ((scoringTokens query).length ≤ 1 →
        admitRow sim threshold query (scoringTokens query)
            (effectiveMinHits (scoringTokens query).length minHits)
            (compactCodeQueryOf query) false (repoUseSimilarity query false force) r =
          (rowDescMatch query r ||
            decide (threshold ≤ rowSimScore sim (repoUseSimilarity query false force) query r))) := by
  subst hforce
  have hsim : rowSimMatch sim (repoUseSimilarity query false false) threshold query r =
      decide (threshold ≤ rowSimScore sim (repoUseSimilarity query false false) query r) := by
    unfold rowSimMatch rowSimScore
    cases repoUseSimilarity query false false with
    | true => simp
    | false =>
      simp only [Bool.false_eq_true, if_false]
      symm
      simp only [decide_eq_false_iff_not, not_le]
      exact hthr
  refine ⟨scoringTokens_eq query, ?_, ?_⟩
  · intro hlen
    have heff : effectiveMinHits (scoringTokens query).length minHits =
        (if minHits = none then 2 else 1) := by
      unfold effectiveMinHits
      rw [if_pos hlen]
      rcases hmh with h | h
      · rw [h]
        rfl
      · rw [h]
        simp only [reduceCtorEq, if_false]
        have h1 : min (1 : ℤ) ((scoringTokens query).length : ℤ) = 1 := by omega
        rw [h1]
        rfl
    unfold admitRow
    rw [if_neg (by simp), if_pos hlen, heff, hsim]
  · intro hlen
    have hlt : ¬ (2 ≤ (scoringTokens query).length) := by omega
    unfold admitRow
    rw [if_neg (by simp), if_neg hlt, hsim]

/-- Witness for claim C2 at a concrete query and row. -/
theorem c2_admission_witness :
    scoringTokens "dolor cabeza intensa" =
      (((splitWS "dolor cabeza intensa".data).filter (fun t => 4 ≤ t.length)).take 5).map
        (fun t => (⟨t⟩ : String)) :=
  (c2_admission (fun _ _ => 0) (1/5) (by norm_num) "dolor cabeza intensa" none (Or.inl rfl)
    false rfl ⟨"R51", "Cefalea", none, none, none, none⟩).1

/-! ### Engine classification (`ClinicalSearchEngine.search`, `_detect_intent`) -/

/-- Model of `ClinicalSearchEngine._detect_intent`: the intent whose keyword
list scores the (strictly) largest number of hits, a hit being a substring
occurrence in the normalized query or an exact whitespace-token match. -/
def detectIntent (cfg : List (String × List String)) (normalizedQuery : String) :
    Option String :=
  (cfg.foldl (fun best p =>
    if best.2 < (p.2.filter (fun kw =>
        substrB normalizedQuery kw || (splitWS normalizedQuery.data).contains kw.data)).length
    then (some p.1, (p.2.filter (fun kw =>
        substrB normalizedQuery kw || (splitWS normalizedQuery.data).contains kw.data)).length)
    else best) ((none : Option String), 0)).1

/-- The classification step of `ClinicalSearchEngine.search`: decide code
versus natural language, produce the query sent to the repository, and the
detected intent (`none` on the code branch and on the empty-normalization
early return). -/
def classifyQuery (u : UnicodeModel) (cfg : List (String × List String))
    (enableIntent : Bool) (rawQuery : String) : Bool × String × Option String :=
  if isCodeQuery (stripS rawQuery) then
    (true, normalizeCodeQuery (stripS rawQuery), none)
  else
    (false, ⟨normalizeQuery u rawQuery.data⟩,
      if (⟨normalizeQuery u rawQuery.data⟩ : String) = "" then none
      else if enableIntent then detectIntent cfg ⟨normalizeQuery u rawQuery.data⟩ else none)

/-- Claim C8: a query matching the ICD code regex takes the code branch of the
pipeline: the emitted intent is `none` and the repository query is the
compacted uppercase form; with the code flag, the repository computes no
similarity (every returned candidate has similarity 0) and admits rows by
exact or prefix code matching only. -/
theorem c8_code_query_bypass (u : UnicodeModel) (cfg : List (String × List String))
    (enableIntent : Bool) (raw : String)
    (hcode : matchesIcdQueryRe (compactNoSpaces (stripS raw)) = true) :
    classifyQuery u cfg enableIntent raw = (true, normalizeCodeQuery (stripS raw), none) ∧
      (∀ (sim : String → String → ℚ) (threshold : ℚ) (table : List IcdRow) (q : String)
          (lim : ℕ) (tagsFilter : List String) (force : Bool) (minHits : Option ℤ),
        (∀ c ∈ searchCandidates sim threshold table q lim tagsFilter true force minHits,
          c.similarity = 0) ∧
        (∀ r : IcdRow,
          admitRow sim threshold q [] (effectiveMinHits 0 minHits) (compactCodeQueryOf q)
              true (repoUseSimilarity q true force) r =
            (rowExact (compactCodeQueryOf q) true r ||
              rowPrefixB (compactCodeQueryOf q) true r))) := by
  constructor
  · unfold classifyQuery
    rw [if_pos]
    unfold isCodeQuery
    rw [hcode]
    rfl
  · intro sim threshold table q lim tagsFilter force minHits
    constructor
    · intro c hc
      by_cases hq : q = ""
      · rw [searchCandidates, if_pos hq] at hc
        exact absurd hc (List.not_mem_nil c)
      · rw [searchCandidates, if_neg hq] at hc
        simp only [Bool.true_or] at hc
        rcases List.mem_map.mp hc with ⟨r, -, hr⟩
        rw [← hr]
        show rowSimScore sim (repoUseSimilarity q true force) q r = 0
        unfold repoUseSimilarity rowSimScore
        simp
    · intro r
      unfold admitRow
      rw [if_pos rfl]

/-- Witness for claim C8 at the concrete code query E11. -/
theorem c8_code_query_bypass_witness :
    classifyQuery idUnicode [] true "E11" = (true, "E11", none) :=
  ((c8_code_query_bypass idUnicode [] true "E11" (by decide)).1).trans (by decide)

/-- Claim C5: when the primary retrieval fails the repository answers with the
code-only fallback — rows admitted by exact-or-prefix match on the compacted
code only, similarity pinned to zero, no description match, ordered by exact
desc, prefix desc, priority desc, code asc — and when the fallback fails too
it answers with the empty list; in both cases the caller receives a list, not
an error. -/
theorem c5_retrieval_degradation (sim : String → String → ℚ) (threshold : ℚ)
    (table : List IcdRow) (query : String) (lim : ℕ) (tagsFilter : List String)
    (qic force : Bool) (minHits : Option ℤ) (hq : query ≠ "") :
    (searchCandidatesTotal true false sim threshold table query lim tagsFilter qic force
        minHits = fallbackCandidates table query lim) ∧
      (searchCandidatesTotal true true sim threshold table query lim tagsFilter qic force
        minHits = []) ∧
      (∀ c ∈ fallbackCandidates table query lim,
        c.similarity = 0 ∧ c.descriptionMatch = false ∧
          (c.exactCodeMatch = true ∨ c.prefixMatch = true) ∧
          c.exactCodeMatch = decide (compactCode c.code = compactCodeQueryOf query) ∧
          c.prefixMatch = (compactCode c.code).startsWith (compactCodeQueryOf query)) ∧
      (fallbackCandidates table query lim).Sorted (fun c1 c2 =>
        toLex (-(bq c1.exactCodeMatch), toLex (-(bq c1.prefixMatch),
            toLex (-c1.priority, c1.code))) ≤
          toLex (-(bq c2.exactCodeMatch), toLex (-(bq c2.prefixMatch),
            toLex (-c2.priority, c2.code)))) := by
  refine ⟨?_, ?_, ?_, ?_⟩
  · unfold searchCandidatesTotal
    rw [if_neg hq]
    rfl
  · unfold searchCandidatesTotal
    rw [if_neg hq]
    rfl
  · intro c hc
    unfold fallbackCandidates at hc
    rcases List.mem_map.mp hc with ⟨r, hrmem, hr⟩
    have hadm : r ∈ table.filter (fun r =>
        decide (compactCode r.code = compactCodeQueryOf query) ||
          (compactCode r.code).startsWith (compactCodeQueryOf query)) :=
      ((sortByKey_perm _ _).mem_iff).mp (List.mem_of_mem_take hrmem)
    have hcond := (List.mem_filter.mp hadm).2
    subst hr
    refine ⟨rfl, rfl, ?_, rfl, rfl⟩
    rcases Bool.or_eq_true _ _ |>.mp hcond with h | h
    · exact Or.inl h
    · exact Or.inr h
  · unfold fallbackCandidates
    apply List.pairwise_map.mpr
    have hs := sortByKey_sorted (fun r : IcdRow =>
      toLex (-(bq (decide (compactCode r.code = compactCodeQueryOf query))),
        toLex (-(bq ((compactCode r.code).startsWith (compactCodeQueryOf query))),
          toLex (-(priorityAsFloat r.priority), r.code))))
      (table.filter (fun r =>
        decide (compactCode r.code = compactCodeQueryOf query) ||
          (compactCode r.code).startsWith (compactCodeQueryOf query)))
    have htake := hs.sublist (List.take_sublist lim _)
    exact htake.imp (fun h => h)

/-- Witness for claim C5 at a concrete table and query. -/
theorem c5_retrieval_degradation_witness :
    searchCandidatesTotal true false (fun _ _ => 0) (1/5)
        [⟨"E11.9", "DM2", none, none, none, none⟩] "E11" 10 [] true false none =
      fallbackCandidates [⟨"E11.9", "DM2", none, none, none, none⟩] "E11" 10 :=
  (c5_retrieval_degradation (fun _ _ => 0) (1/5)
    [⟨"E11.9", "DM2", none, none, none, none⟩] "E11" 10 [] true false none
    (by decide)).1

/-! ### Variant expansion and the retry plan (`_expand_query_variants`,
`ClinicalSearchEngine.search`) -/

/-- The `base_tokens` of `_expand_query_variants`
(`_TOKEN_RE.findall(normalized_query.strip().lower())`). -/
def variantBaseTokens (u : UnicodeModel) (q : String) : List (List Char) :=
  findTokens (pyLower u (pyStrip q.data))

/-- The stopword-filtered tokens of `_expand_query_variants`. -/
def variantFilteredTokens (u : UnicodeModel) (q : String) : List (List Char) :=
  (variantBaseTokens u q).filter (fun t => !STOPWORDS.contains t)

/-- The `collapsed` base variant of `_expand_query_variants` (filtered tokens,
with the fallback to the unfiltered tokens, joined by single spaces). -/
def variantCollapsed (u : UnicodeModel) (q : String) : String :=
  ⟨joinSpace (if (variantFilteredTokens u q).isEmpty then variantBaseTokens u q
    else variantFilteredTokens u q)⟩

/-- The headache rule of `_expand_query_variants`: the filtered tokens contain
`dolor` and some filtered token starts with `cabe`. -/
def variantRuleFires (u : UnicodeModel) (q : String) : Bool :=
  (variantFilteredTokens u q).contains "dolor".data &&
    (variantFilteredTokens u q).any (fun t => "cabe".data.isPrefixOf t)

/-- Model of the `add_variant` closure: whitespace-collapse the value and
append it when non-empty and unseen. The trailing `strip` of the source is a
no-op because a join of split tokens never has edge whitespace. -/
def addVariant (variants : List String) (v : String) : List String :=
  if (⟨joinSpace (splitWS v.data)⟩ : String) ≠ "" ∧
      (⟨joinSpace (splitWS v.data)⟩ : String) ∉ variants
  then variants ++ [⟨joinSpace (splitWS v.data)⟩] else variants

/-- Model of `ClinicalSearchEngine._expand_query_variants`. -/
def expandQueryVariants (u : UnicodeModel) (q : String) : List String :=
  addVariant
    (if variantRuleFires u q then addVariant (addVariant [] "cefalea") "migraña" else [])
    (variantCollapsed u q)

/-- The `search_attempts` list built by `ClinicalSearchEngine.search`: the
base attempt, the expanded variants differing from the base (natural language
only), and the relaxed-min-hits reattempt when the base query has at least two
whitespace tokens. -/
def searchAttempts (u : UnicodeModel) (queryForRepo : String) (isCode : Bool) :
    List (String × Option ℤ × String) :=
  [(queryForRepo, none, "base")] ++
    (if isCode then [] else
      ((expandQueryVariants u queryForRepo).filter (fun v => v ≠ queryForRepo)).map
        (fun v => (v, none, "expanded"))) ++
    (if isCode then [] else
      if 2 ≤ (splitWS queryForRepo.data).length then
        [(queryForRepo, some (1 : ℤ), "relaxed_min_hits")] else [])

/-- The attempt loop of `ClinicalSearchEngine.search`: run the repository
response for each attempt in order and stop at the first non-empty candidate
list; the loop falls through to the empty list when every attempt is empty. -/
def runAttempts (resp : String → Option ℤ → List ExtendedICD10Candidate) :
    List (String × Option ℤ × String) → List ExtendedICD10Candidate
  | [] => []
  | (q, mh, _) :: rest =>
    if (resp q mh).isEmpty then runAttempts resp rest else resp q mh

theorem runAttempts_eq_find (resp : String → Option ℤ → List ExtendedICD10Candidate)
    (atts : List (String × Option ℤ × String)) :
    runAttempts resp atts =
      ((atts.map (fun a => resp a.1 a.2.1)).find? (fun l => !l.isEmpty)).getD [] := by
  induction atts with
  | nil => rfl
  | cons a rest ih =>
    obtain ⟨q, mh, k⟩ := a
    show (if (resp q mh).isEmpty then runAttempts resp rest else resp q mh) = _
    simp only [List.map_cons, List.find?_cons]
    cases hemp : (resp q mh).isEmpty with
    | true =>
      rw [if_pos rfl]
      simp only [hemp, Bool.not_true]
      exact ih
    | false =>
      rw [if_neg (by simp [hemp])]
      simp only [hemp, Bool.not_false]
      rfl

theorem variantTokens_good (u : UnicodeModel) (q : String) :
    ∀ t ∈ (if (variantFilteredTokens u q).isEmpty then variantBaseTokens u q
        else variantFilteredTokens u q),
      t ≠ [] ∧ ∀ c ∈ t, isPySpace c = false := by
  intro t ht
  have hbase : t ∈ variantBaseTokens u q := by
    cases hfe : (variantFilteredTokens u q).isEmpty with
    | true =>
      rw [hfe, if_pos rfl] at ht
      exact ht
    | false =>
      rw [hfe] at ht
      simp only [Bool.false_eq_true, if_false] at ht
      exact (List.mem_filter.mp ht).1
  have hgood := findTokens_good t hbase
  exact ⟨hgood.1, fun c hc => isPySpace_eq_false_of_isTokenChar (hgood.2 c hc)⟩

theorem addVariant_collapsed (u : UnicodeModel) (q : String)
    (hcanon : variantCollapsed u q = q) (hne : q ≠ "") (st : List String) :
    addVariant st q = if q ∉ st then st ++ [q] else st := by
  have h1 : q.data = joinSpace (if (variantFilteredTokens u q).isEmpty
      then variantBaseTokens u q else variantFilteredTokens u q) :=
    congrArg String.data hcanon.symm
  have hround : (⟨joinSpace (splitWS q.data)⟩ : String) = q := by
    rw [h1, splitWS_joinSpace (variantTokens_good u q)]
    exact hcanon
  unfold addVariant
  rw [hround]
  by_cases hmem : q ∉ st
  · rw [if_pos ⟨hne, hmem⟩, if_pos hmem]
  · rw [if_neg (fun h => hmem h.2), if_neg hmem]

theorem dolor_mem_collapsed (u : UnicodeModel) (q : String)
    (hcanon : variantCollapsed u q = q)
    (hfires : variantRuleFires u q = true) : ('d' : Char) ∈ q.data := by
  have hdolor : "dolor".data ∈ variantFilteredTokens u q := by
    have h1 := (Bool.and_eq_true _ _).mp hfires |>.1
    simpa using h1
  have hne : (variantFilteredTokens u q).isEmpty = false := by
    rcases h : (variantFilteredTokens u q) with _ | ⟨a, b⟩
    · rw [h] at hdolor
      exact absurd hdolor (List.not_mem_nil _)
    · rfl
  have hdata : q.data = joinSpace (variantFilteredTokens u q) := by
    conv_lhs => rw [← hcanon]
    show joinSpace (if (variantFilteredTokens u q).isEmpty then variantBaseTokens u q
      else variantFilteredTokens u q) = _
    rw [hne]
    simp
  rw [hdata]
  exact mem_joinSpace_of_mem hdolor (by decide)

/-- Claim C3: the attempt plan. A code query makes exactly the single base
attempt; a (canonical, non-empty) natural-language query attempts the base
with default min-hits, then the expanded variants — `cefalea` then `migraña`
exactly when the filtered tokens contain `dolor` and a token starting with
`cabe`, and nothing else since the deduplicated base collapses to the query —
and finally the base with min-hits 1 when the base has at least two
whitespace tokens; the loop stops at the first attempt with a non-empty
candidate list. -/
theorem c3_retry_plan (u : UnicodeModel) (q : String)
    (hcanon : variantCollapsed u q = q) (hne : q ≠ "") :
    searchAttempts u q true = [(q, none, "base")] ∧
      searchAttempts u q false =
        [(q, none, "base")] ++
          (if variantRuleFires u q then
            [("cefalea", none, "expanded"), ("migraña", none, "expanded")] else []) ++
          (if 2 ≤ (splitWS q.data).length then [(q, some (1 : ℤ), "relaxed_min_hits")]
            else []) ∧
      (∀ resp atts, runAttempts resp atts =
        ((atts.map (fun a => resp a.1 a.2.1)).find? (fun l => !l.isEmpty)).getD []) := by
  refine ⟨by simp [searchAttempts], ?_, fun resp atts => runAttempts_eq_find resp atts⟩
  unfold searchAttempts
  simp only [if_neg (by exact Bool.false_ne_true)]
  congr 1
  cases hfires : variantRuleFires u q with
  | false =>
    have hexp : expandQueryVariants u q = [q] := by
      unfold expandQueryVariants
      rw [hfires]
      simp only [Bool.false_eq_true, if_false]
      rw [hcanon, addVariant_collapsed u q hcanon hne []]
      simp
    simp only [hexp, if_false]
    rw [List.filter_cons_of_neg (by simp), List.filter_nil]
    rfl
  | true =>
    have hd : ('d' : Char) ∈ q.data := dolor_mem_collapsed u q hcanon hfires
    have hqc : q ≠ "cefalea" := by
      intro h
      rw [h] at hd
      exact absurd hd (by decide)
    have hqm : q ≠ "migraña" := by
      intro h
      rw [h] at hd
      exact absurd hd (by decide)
    have hexp : expandQueryVariants u q = ["cefalea", "migraña", q] := by
      unfold expandQueryVariants
      rw [hfires]
      simp only [if_true]
      rw [show addVariant (addVariant [] "cefalea") "migraña" = ["cefalea", "migraña"] by decide]
      rw [hcanon, addVariant_collapsed u q hcanon hne ["cefalea", "migraña"]]
      rw [if_pos (by simp [hqc, hqm])]
      rfl
    simp only [hexp, if_true]
    rw [List.filter_cons_of_pos (by simp [Ne.symm hqc]),
      List.filter_cons_of_pos (by simp [Ne.symm hqm]),
      List.filter_cons_of_neg (by simp), List.filter_nil]
    rfl

/-- Witness for claim C3 at the concrete query of the specification. -/
theorem c3_retry_plan_witness :
    searchAttempts idUnicode "dolor cabeza" false =
      [("dolor cabeza", none, "base"), ("cefalea", none, "expanded"),
        ("migraña", none, "expanded"), ("dolor cabeza", some (1 : ℤ), "relaxed_min_hits")] := by
  have h := (c3_retry_plan idUnicode "dolor cabeza" (by decide) (by decide)).2.1
  exact h.trans (by decide)

/-! ### Post-ranking parent and child grouping (`ClinicalSearchEngine.search`,
step 4.1) -/

/-- The code as the grouping step views it: `(result.code or "").strip().upper()`. -/
def normCodeOf (r : ClinicalSearchResult) : String := upperS (stripS r.code)

/-- The child test of the grouping step:
`len(code) > 4 and code.startswith(code[:3] + ".")` (the prefix test is taken
on the character lists underlying the strings). -/
def isChildCode (c : String) : Bool :=
  decide (4 < c.length) && List.isPrefixOf (c.data.take 3 ++ ['.']) c.data

/-- The `parent_map` of the grouping step, as a lookup over the tagged result
list; tagging with positions models Python object identity in `added_ids`. -/
def childrenOf (tagged : List (ℕ × ClinicalSearchResult)) (p : String) :
    List (ℕ × ClinicalSearchResult) :=
  tagged.filter (fun x => isChildCode (normCodeOf x.2) && decide ((normCodeOf x.2).take 3 = p))

/-- The inner loop of the grouping step: emit the children of a parent that
were not already emitted. -/
def emitChildren : List (ℕ × ClinicalSearchResult) → List ℕ →
    List (ℕ × ClinicalSearchResult) × List ℕ
  | [], a => ([], a)
  | (j, c) :: rest, a =>
    if j ∈ a then emitChildren rest a
    else
      let r := emitChildren rest (j :: a)
      ((j, c) :: r.1, r.2)

/-- The main loop of the grouping step: walk the results; a 3-character code
is emitted (if new) and immediately followed by its not-yet-emitted children;
any other result is emitted at its own position if new. -/
def walkGroup (cmap : String → List (ℕ × ClinicalSearchResult)) :
    List (ℕ × ClinicalSearchResult) → List ℕ →
    List (ℕ × ClinicalSearchResult) × List ℕ
  | [], a => ([], a)
  | (i, r) :: rest, a =>
    if (normCodeOf r).length = 3 then
      let first := if i ∈ a then (([] : List (ℕ × ClinicalSearchResult)), a)
        else ([(i, r)], i :: a)
      let kids := emitChildren (cmap (normCodeOf r)) first.2
      let tail := walkGroup cmap rest kids.2
      (first.1 ++ kids.1 ++ tail.1, tail.2)
    else if i ∈ a then walkGroup cmap rest a
    else
      let tail := walkGroup cmap rest (i :: a)
      ((i, r) :: tail.1, tail.2)

/-- The grouped result list before the cardinality guard. -/
def groupCore (rs : List ClinicalSearchResult) : List ClinicalSearchResult :=
  (walkGroup (childrenOf rs.enum) rs.enum []).1.map Prod.snd

/-- Model of the post-ranking grouping of `ClinicalSearchEngine.search`:
rearrange only when a 3-character code is present, and keep the rearrangement
only when it preserves cardinality. -/
def groupResults (rs : List ClinicalSearchResult) : List ClinicalSearchResult :=
  if rs.any (fun r => decide ((normCodeOf r).length = 3)) then
    if (groupCore rs).length = rs.length then groupCore rs else rs
  else rs

theorem emitChildren_snd (l : List (ℕ × ClinicalSearchResult)) (a : List ℕ) :
    (emitChildren l a).2 = ((emitChildren l a).1.map Prod.fst).reverse ++ a := by
  induction l generalizing a with
  | nil => rfl
  | cons x rest ih =>
    obtain ⟨j, c⟩ := x
    show (emitChildren ((j, c) :: rest) a).2 = _
    by_cases hj : j ∈ a
    · simp only [emitChildren, if_pos hj]
      exact ih a
    · simp only [emitChildren, if_neg hj]
      rw [ih (j :: a)]
      simp [List.append_assoc]

theorem walkGroup_snd (cmap : String → List (ℕ × ClinicalSearchResult))
    (l : List (ℕ × ClinicalSearchResult)) (a : List ℕ) :
    (walkGroup cmap l a).2 = ((walkGroup cmap l a).1.map Prod.fst).reverse ++ a := by
  induction l generalizing a with
  | nil => rfl
  | cons x rest ih =>
    obtain ⟨i, r⟩ := x
    by_cases h3 : (normCodeOf r).length = 3
    · simp only [walkGroup, if_pos h3]
      by_cases hi : i ∈ a
      · simp only [if_pos hi]
        rw [ih, emitChildren_snd]
        simp [List.append_assoc]
      · simp only [if_neg hi]
        rw [ih, emitChildren_snd]
        simp [List.append_assoc]
    · simp only [walkGroup, if_neg h3]
      by_cases hi : i ∈ a
      · simp only [if_pos hi]
        exact ih a
      · simp only [if_neg hi]
        rw [ih (i :: a)]
        simp [List.append_assoc]

theorem emitChildren_append (xs ys : List (ℕ × ClinicalSearchResult)) (a : List ℕ) :
    emitChildren (xs ++ ys) a =
      ((emitChildren xs a).1 ++ (emitChildren ys (emitChildren xs a).2).1,
        (emitChildren ys (emitChildren xs a).2).2) := by
  induction xs generalizing a with
  | nil => rfl
  | cons x rest ih =>
    obtain ⟨j, c⟩ := x
    by_cases hj : j ∈ a
    · simp only [List.cons_append, emitChildren, if_pos hj]
      exact ih a
    · simp only [List.cons_append, emitChildren, if_neg hj]
      rw [List.append_eq, ih (j :: a)]

theorem walkGroup_append (cmap : String → List (ℕ × ClinicalSearchResult))
    (xs ys : List (ℕ × ClinicalSearchResult)) (a : List ℕ) :
    walkGroup cmap (xs ++ ys) a =
      ((walkGroup cmap xs a).1 ++ (walkGroup cmap ys (walkGroup cmap xs a).2).1,
        (walkGroup cmap ys (walkGroup cmap xs a).2).2) := by
  induction xs generalizing a with
  | nil => rfl
  | cons x rest ih =>
    obtain ⟨i, r⟩ := x
    by_cases h3 : (normCodeOf r).length = 3
    · simp only [List.cons_append, walkGroup, if_pos h3]
      by_cases hi : i ∈ a
      · simp only [if_pos hi, List.append_eq]
        rw [ih]
        simp [List.append_assoc]
      · simp only [if_neg hi, List.append_eq]
        rw [ih]
        simp [List.append_assoc]
    · simp only [List.cons_append, walkGroup, if_neg h3]
      by_cases hi : i ∈ a
      · simp only [if_pos hi, List.append_eq]
        exact ih a
      · simp only [if_neg hi, List.append_eq]
        rw [ih (i :: a)]
        simp

theorem emitChildren_sub {l : List (ℕ × ClinicalSearchResult)} {a : List ℕ}
    {x : ℕ × ClinicalSearchResult} (hx : x ∈ (emitChildren l a).1) : x ∈ l := by
  induction l generalizing a with
  | nil => exact absurd hx (List.not_mem_nil x)
  | cons y rest ih =>
    obtain ⟨j, c⟩ := y
    by_cases hj : j ∈ a
    · simp only [emitChildren, if_pos hj] at hx
      exact List.mem_cons_of_mem _ (ih hx)
    · simp only [emitChildren, if_neg hj] at hx
      rcases List.mem_cons.mp hx with h | h
      · rw [h]; exact List.mem_cons_self _ _
      · exact List.mem_cons_of_mem _ (ih h)

theorem emitChildren_skip {l : List (ℕ × ClinicalSearchResult)} {a : List ℕ}
    (h : ∀ x ∈ l, x.1 ∈ a) : emitChildren l a = ([], a) := by
  induction l with
  | nil => rfl
  | cons y rest ih =>
    obtain ⟨j, c⟩ := y
    have hj : j ∈ a := h (j, c) (List.mem_cons_self _ _)
    simp only [emitChildren, if_pos hj]
    exact ih (fun x hx => h x (List.mem_cons_of_mem _ hx))

theorem emitChildren_all {l : List (ℕ × ClinicalSearchResult)} {a : List ℕ}
    (hnd : (l.map Prod.fst).Nodup) (h : ∀ x ∈ l, x.1 ∉ a) :
    (emitChildren l a).1 = l := by
  induction l generalizing a with
  | nil => rfl
  | cons y rest ih =>
    obtain ⟨j, c⟩ := y
    have hj : j ∉ a := h (j, c) (List.mem_cons_self _ _)
    simp only [emitChildren, if_neg hj]
    rw [List.map_cons, List.nodup_cons] at hnd
    have hrest : ∀ x ∈ rest, x.1 ∉ j :: a := by
      intro x hx
      rw [List.mem_cons]
      rintro (hxj | hxa)
      · apply hnd.1
        rw [← hxj]
        exact List.mem_map.mpr ⟨x, hx, rfl⟩
      · exact h x (List.mem_cons_of_mem _ hx) hxa
    rw [ih hnd.2 hrest]

theorem mem_emitChildren_snd {l : List (ℕ × ClinicalSearchResult)} {a : List ℕ} {j : ℕ} :
    j ∈ (emitChildren l a).2 ↔ j ∈ (emitChildren l a).1.map Prod.fst ∨ j ∈ a := by
  rw [emitChildren_snd]
  simp

theorem mem_walkGroup_snd {cmap : String → List (ℕ × ClinicalSearchResult)}
    {l : List (ℕ × ClinicalSearchResult)} {a : List ℕ} {j : ℕ} :
    j ∈ (walkGroup cmap l a).2 ↔ j ∈ (walkGroup cmap l a).1.map Prod.fst ∨ j ∈ a := by
  rw [walkGroup_snd]
  simp

theorem walkGroup_sub {cmap : String → List (ℕ × ClinicalSearchResult)}
    {l : List (ℕ × ClinicalSearchResult)} {a : List ℕ} {x : ℕ × ClinicalSearchResult}
    (hx : x ∈ (walkGroup cmap l a).1) :
    x ∈ l ∨ ∃ y ∈ l, (normCodeOf y.2).length = 3 ∧ x ∈ cmap (normCodeOf y.2) := by
  induction l generalizing a with
  | nil => exact absurd hx (List.not_mem_nil x)
  | cons z rest ih =>
    obtain ⟨i, r⟩ := z
    by_cases h3 : (normCodeOf r).length = 3
    · simp only [walkGroup, if_pos h3, List.mem_append] at hx
      rcases hx with (hx | hx) | hx
      · by_cases hi : i ∈ a
        · rw [if_pos hi] at hx
          exact absurd hx (List.not_mem_nil x)
        · rw [if_neg hi, List.mem_singleton] at hx
          exact Or.inl (by rw [hx]; exact List.mem_cons_self _ _)
      · exact Or.inr ⟨(i, r), List.mem_cons_self _ _, h3, emitChildren_sub hx⟩
      · rcases ih hx with h | ⟨y, hy, hy3, hycm⟩
        · exact Or.inl (List.mem_cons_of_mem _ h)
        · exact Or.inr ⟨y, List.mem_cons_of_mem _ hy, hy3, hycm⟩
    · simp only [walkGroup, if_neg h3] at hx
      by_cases hi : i ∈ a
      · rw [if_pos hi] at hx
        rcases ih hx with h | ⟨y, hy, hy3, hycm⟩
        · exact Or.inl (List.mem_cons_of_mem _ h)
        · exact Or.inr ⟨y, List.mem_cons_of_mem _ hy, hy3, hycm⟩
      · rw [if_neg hi] at hx
        rcases List.mem_cons.mp hx with h | h
        · exact Or.inl (by rw [h]; exact List.mem_cons_self _ _)
        · rcases ih h with h2 | ⟨y, hy, hy3, hycm⟩
          · exact Or.inl (List.mem_cons_of_mem _ h2)
          · exact Or.inr ⟨y, List.mem_cons_of_mem _ hy, hy3, hycm⟩

theorem emitChildren_nodup (l : List (ℕ × ClinicalSearchResult)) (a : List ℕ) :
    ((emitChildren l a).1.map Prod.fst).Nodup ∧
      ∀ j ∈ (emitChildren l a).1.map Prod.fst, j ∉ a := by
  induction l generalizing a with
  | nil => exact ⟨List.nodup_nil, fun j hj => absurd hj (List.not_mem_nil j)⟩
  | cons y rest ih =>
    obtain ⟨j, c⟩ := y
    by_cases hj : j ∈ a
    · simp only [emitChildren, if_pos hj]
      exact ih a
    · simp only [emitChildren, if_neg hj, List.map_cons]
      obtain ⟨hnd, hdisj⟩ := ih (j :: a)
      rw [List.nodup_cons]
      refine ⟨⟨fun hmem => ?_, hnd⟩, ?_⟩
      · exact hdisj j hmem (List.mem_cons_self _ _)
      · intro k hk
        rcases List.mem_cons.mp hk with h | h
        · rw [h]; exact hj
        · exact fun hka => hdisj k h (List.mem_cons_of_mem _ hka)

theorem walkGroup_nodup (cmap : String → List (ℕ × ClinicalSearchResult))
    (l : List (ℕ × ClinicalSearchResult)) (a : List ℕ) :
    ((walkGroup cmap l a).1.map Prod.fst).Nodup ∧
      ∀ j ∈ (walkGroup cmap l a).1.map Prod.fst, j ∉ a := by
  induction l generalizing a with
  | nil => exact ⟨List.nodup_nil, fun j hj => absurd hj (List.not_mem_nil j)⟩
  | cons z rest ih =>
    obtain ⟨i, r⟩ := z
    by_cases h3 : (normCodeOf r).length = 3
    · simp only [walkGroup, if_pos h3]
      by_cases hi : i ∈ a
      · simp only [if_pos hi, List.nil_append]
        obtain ⟨hknd, hkdisj⟩ := emitChildren_nodup (cmap (normCodeOf r)) a
        obtain ⟨htnd, htdisj⟩ := ih (emitChildren (cmap (normCodeOf r)) a).2
        have htk : ∀ j ∈ (walkGroup cmap rest
            (emitChildren (cmap (normCodeOf r)) a).2).1.map Prod.fst,
            j ∉ (emitChildren (cmap (normCodeOf r)) a).1.map Prod.fst ∧ j ∉ a := by
          intro j hjt
          have h1 := htdisj j hjt
          exact ⟨fun hjk => h1 (mem_emitChildren_snd.mpr (Or.inl hjk)),
            fun hja => h1 (mem_emitChildren_snd.mpr (Or.inr hja))⟩
        constructor
        · rw [List.map_append, List.nodup_append]
          exact ⟨hknd, htnd, fun j hjk hjt => (htk j hjt).1 hjk⟩
        · intro j hj
          rw [List.map_append, List.mem_append] at hj
          rcases hj with hj | hj
          · exact hkdisj j hj
          · exact (htk j hj).2
      · simp only [if_neg hi]
        obtain ⟨hknd, hkdisj⟩ := emitChildren_nodup (cmap (normCodeOf r)) (i :: a)
        obtain ⟨htnd, htdisj⟩ := ih (emitChildren (cmap (normCodeOf r)) (i :: a)).2
        have htk : ∀ j ∈ (walkGroup cmap rest
            (emitChildren (cmap (normCodeOf r)) (i :: a)).2).1.map Prod.fst,
            j ∉ (emitChildren (cmap (normCodeOf r)) (i :: a)).1.map Prod.fst ∧
              j ≠ i ∧ j ∉ a := by
          intro j hjt
          have h1 := htdisj j hjt
          refine ⟨fun hjk => h1 (mem_emitChildren_snd.mpr (Or.inl hjk)), ?_, ?_⟩
          · intro hji
            exact h1 (mem_emitChildren_snd.mpr
              (Or.inr (by rw [hji]; exact List.mem_cons_self _ _)))
          · intro hja
            exact h1 (mem_emitChildren_snd.mpr (Or.inr (List.mem_cons_of_mem _ hja)))
        have hkk : ∀ j ∈ (emitChildren (cmap (normCodeOf r)) (i :: a)).1.map Prod.fst,
            j ≠ i ∧ j ∉ a := by
          intro j hjk
          have h1 := hkdisj j hjk
          exact ⟨fun hji => h1 (by rw [hji]; exact List.mem_cons_self _ _),
            fun hja => h1 (List.mem_cons_of_mem _ hja)⟩
        have hmapeq : (([(i, r)] ++ (emitChildren (cmap (normCodeOf r)) (i :: a)).1 ++
            (walkGroup cmap rest (emitChildren (cmap (normCodeOf r)) (i :: a)).2).1).map
              Prod.fst) =
            i :: ((emitChildren (cmap (normCodeOf r)) (i :: a)).1.map Prod.fst ++
              (walkGroup cmap rest
                (emitChildren (cmap (normCodeOf r)) (i :: a)).2).1.map Prod.fst) := by
          simp
        constructor
        · rw [hmapeq, List.nodup_cons]
          constructor
          · rw [List.mem_append]
            rintro (h | h)
            · exact (hkk i h).1 rfl
            · exact (htk i h).2.1 rfl
          · rw [List.nodup_append]
            exact ⟨hknd, htnd, fun j hjk hjt => (htk j hjt).1 hjk⟩
        · intro j hj
          rw [hmapeq, List.mem_cons, List.mem_append] at hj
          rcases hj with hj | hj | hj
          · rw [hj]; exact hi
          · exact (hkk j hj).2
          · exact (htk j hj).2.2
    · simp only [walkGroup, if_neg h3]
      by_cases hi : i ∈ a
      · simp only [if_pos hi]
        exact ih a
      · simp only [if_neg hi, List.map_cons]
        obtain ⟨htnd, htdisj⟩ := ih (i :: a)
        rw [List.nodup_cons]
        refine ⟨⟨fun hmem => htdisj i hmem (List.mem_cons_self _ _), htnd⟩, ?_⟩
        intro j hj
        rcases List.mem_cons.mp hj with h | h
        · rw [h]; exact hi
        · exact fun hja => htdisj j h (List.mem_cons_of_mem _ hja)

theorem walkGroup_cover (cmap : String → List (ℕ × ClinicalSearchResult))
    (l : List (ℕ × ClinicalSearchResult)) (a : List ℕ) :
    ∀ x ∈ l, x.1 ∈ (walkGroup cmap l a).2 := by
  induction l generalizing a with
  | nil => intro x hx; exact absurd hx (List.not_mem_nil x)
  | cons z rest ih =>
    obtain ⟨i, r⟩ := z
    intro x hx
    by_cases h3 : (normCodeOf r).length = 3
    · simp only [walkGroup, if_pos h3]
      rcases List.mem_cons.mp hx with h | h
      · have hfirst : i ∈ (if i ∈ a then (([] : List (ℕ × ClinicalSearchResult)), a)
            else ([(i, r)], i :: a)).2 := by
          by_cases hi : i ∈ a
          · rw [if_pos hi]; exact hi
          · rw [if_neg hi]; exact List.mem_cons_self _ _
        have hkids : i ∈ (emitChildren (cmap (normCodeOf r))
            (if i ∈ a then (([] : List (ℕ × ClinicalSearchResult)), a)
              else ([(i, r)], i :: a)).2).2 :=
          mem_emitChildren_snd.mpr (Or.inr hfirst)
        rw [h]
        exact mem_walkGroup_snd.mpr (Or.inr hkids)
      · exact ih _ x h
    · simp only [walkGroup, if_neg h3]
      by_cases hi : i ∈ a
      · simp only [if_pos hi]
        rcases List.mem_cons.mp hx with h | h
        · rw [h]
          exact mem_walkGroup_snd.mpr (Or.inr hi)
        · exact ih a x h
      · simp only [if_neg hi]
        rcases List.mem_cons.mp hx with h | h
        · rw [h]
          exact mem_walkGroup_snd.mpr (Or.inr (List.mem_cons_self _ _))
        · exact ih (i :: a) x h

theorem nodup_fst_inj {l : List (ℕ × ClinicalSearchResult)}
    (h : (l.map Prod.fst).Nodup) {i : ℕ} {x y : ClinicalSearchResult}
    (hx : (i, x) ∈ l) (hy : (i, y) ∈ l) : x = y := by
  induction l with
  | nil => exact absurd hx (List.not_mem_nil _)
  | cons z rest ih =>
    rw [List.map_cons, List.nodup_cons] at h
    rcases List.mem_cons.mp hx with h1 | h1 <;> rcases List.mem_cons.mp hy with h2 | h2
    · rw [← h1] at h2
      exact (Prod.mk.injEq _ _ _ _ ▸ h2).2.symm
    · exact absurd (by rw [← h1]; exact List.mem_map.mpr ⟨(i, y), h2, rfl⟩) h.1
    · exact absurd (by rw [← h2]; exact List.mem_map.mpr ⟨(i, x), h1, rfl⟩) h.1
    · exact ih h.2 h1 h2

theorem enumFrom_append_eq {α : Type*} (n : ℕ) (xs ys : List α) :
    List.enumFrom n (xs ++ ys) = List.enumFrom n xs ++ List.enumFrom (n + xs.length) ys := by
  induction xs generalizing n with
  | nil => simp
  | cons x rest ih =>
    simp only [List.cons_append, List.enumFrom_cons, ih (n + 1), List.length_cons]
    have h : n + 1 + rest.length = n + (rest.length + 1) := by omega
    rw [h]

theorem mem_enumFrom_bounds {α : Type*} {n : ℕ} {l : List α} {x : ℕ × α}
    (hx : x ∈ List.enumFrom n l) : n ≤ x.1 ∧ x.1 < n + l.length := by
  induction l generalizing n with
  | nil => exact absurd hx (List.not_mem_nil x)
  | cons y rest ih =>
    rw [List.enumFrom_cons, List.mem_cons] at hx
    rcases hx with h | h
    · rw [h]
      simp only [List.length_cons]
      omega
    · have := ih h
      simp only [List.length_cons]
      omega

theorem mem_enumFrom_snd {α : Type*} {n : ℕ} {l : List α} {x : ℕ × α}
    (hx : x ∈ List.enumFrom n l) : x.2 ∈ l := by
  have h1 : x.2 ∈ (List.enumFrom n l).map Prod.snd := List.mem_map.mpr ⟨x, hx, rfl⟩
  rwa [List.enumFrom_map_snd] at h1

theorem enumFrom_filter_snd {α : Type*} (p : α → Bool) (n : ℕ) (l : List α) :
    ((List.enumFrom n l).filter (fun x => p x.2)).map Prod.snd = l.filter p := by
  induction l generalizing n with
  | nil => rfl
  | cons y rest ih =>
    rw [List.enumFrom_cons, List.filter_cons, List.filter_cons]
    cases hy : p y with
    | true => simp [hy, ih (n + 1)]
    | false => simp [hy, ih (n + 1)]

theorem walkGroup_perm_enum (rs : List ClinicalSearchResult) :
    (walkGroup (childrenOf rs.enum) rs.enum []).1.Perm rs.enum := by
  have htnd : (rs.enum.map Prod.fst).Nodup := by
    rw [List.enum_eq_enumFrom, List.enumFrom_map_fst]
    exact List.nodup_range' 0 rs.length
  have hond : ((walkGroup (childrenOf rs.enum) rs.enum []).1.map Prod.fst).Nodup :=
    (walkGroup_nodup _ _ _).1
  have hsub : ∀ x ∈ (walkGroup (childrenOf rs.enum) rs.enum []).1, x ∈ rs.enum := by
    intro x hx
    rcases walkGroup_sub hx with h | ⟨y, _, _, hcm⟩
    · exact h
    · exact (List.mem_filter.mp hcm).1
  have hcover : ∀ x ∈ rs.enum, x ∈ (walkGroup (childrenOf rs.enum) rs.enum []).1 := by
    intro x hx
    have h1 := walkGroup_cover (childrenOf rs.enum) rs.enum [] x hx
    rcases mem_walkGroup_snd.mp h1 with h2 | h2
    · rcases List.mem_map.mp h2 with ⟨z, hz, hz1⟩
      have hzt : z ∈ rs.enum := hsub z hz
      obtain ⟨i, xv⟩ := x
      obtain ⟨zi, zv⟩ := z
      simp only at hz1
      subst hz1
      have heq : zv = xv := nodup_fst_inj htnd hzt hx
      rw [← heq]
      exact hz
    · exact absurd h2 (List.not_mem_nil _)
  exact (List.perm_ext_iff_of_nodup (List.Nodup.of_map Prod.fst hond)
    (List.Nodup.of_map Prod.fst htnd)).mpr (fun x => ⟨hsub x, hcover x⟩)

theorem groupCore_perm (rs : List ClinicalSearchResult) : (groupCore rs).Perm rs := by
  have h2 := (walkGroup_perm_enum rs).map Prod.snd
  rw [List.enum_eq_enumFrom, List.enumFrom_map_snd] at h2
  exact h2

theorem groupResults_eq (rs : List ClinicalSearchResult) :
    groupResults rs =
      (if rs.any (fun r => decide ((normCodeOf r).length = 3)) then groupCore rs else rs) := by
  unfold groupResults
  split_ifs with h1 h2
  · rfl
  · exact absurd (groupCore_perm rs).length_eq h2
  · rfl

theorem walkGroup_filter_safe (cmap : String → List (ℕ × ClinicalSearchResult))
    (H : ℕ × ClinicalSearchResult → Bool) :
    ∀ (l : List (ℕ × ClinicalSearchResult)) (a : List ℕ),
      (l.map Prod.fst).Nodup →
      (∀ x ∈ l, (normCodeOf x.2).length = 3 →
        ∀ y ∈ cmap (normCodeOf x.2), H y = true) →
      (∀ x ∈ l, ∀ p, ∀ y ∈ cmap p, y.1 = x.1 → y = x) →
      (∀ x ∈ l, H x = false → x.1 ∉ a) →
      (walkGroup cmap l a).1.filter (fun x => !H x) = l.filter (fun x => !H x) := by
  intro l
  induction l with
  | nil => intro a _ _ _ _; rfl
  | cons z rest ih =>
    intro a hnd hsafe hinj hinv
    obtain ⟨i, r⟩ := z
    rw [List.map_cons, List.nodup_cons] at hnd
    have hsafe2 : ∀ x ∈ rest, (normCodeOf x.2).length = 3 →
        ∀ y ∈ cmap (normCodeOf x.2), H y = true :=
      fun x hx => hsafe x (List.mem_cons_of_mem _ hx)
    have hinj2 : ∀ x ∈ rest, ∀ p, ∀ y ∈ cmap p, y.1 = x.1 → y = x :=
      fun x hx => hinj x (List.mem_cons_of_mem _ hx)
    by_cases h3 : (normCodeOf r).length = 3
    · simp only [walkGroup, if_pos h3]
      have hkids_filter : ∀ fs : List ℕ,
          ((emitChildren (cmap (normCodeOf r)) fs).1.filter (fun x => !H x)) = [] := by
        intro fs
        rw [List.filter_eq_nil_iff]
        intro y hy
        have hyc : y ∈ cmap (normCodeOf r) := emitChildren_sub hy
        rw [hsafe (i, r) (List.mem_cons_self _ _) h3 y hyc]
        simp
      by_cases hi : i ∈ a
      · have hH : H (i, r) = true := by
          by_contra hf
          rw [Bool.not_eq_true] at hf
          exact hinv (i, r) (List.mem_cons_self _ _) hf hi
        simp only [if_pos hi, List.nil_append, List.filter_append, hkids_filter,
          List.nil_append]
        rw [List.filter_cons_of_neg (by simp [hH])]
        apply ih _ hnd.2 hsafe2 hinj2
        intro x hx hxf
        rw [mem_emitChildren_snd]
        rintro (hxk | hxa)
        · rcases List.mem_map.mp hxk with ⟨y, hy, hy1⟩
          have hyc := emitChildren_sub hy
          have := hinj x (List.mem_cons_of_mem _ hx) _ y hyc hy1
          rw [← this] at hxf
          rw [hsafe (i, r) (List.mem_cons_self _ _) h3 y hyc] at hxf
          exact Bool.true_eq_false ▸ hxf.symm ▸ (by cases hxf)
        · exact hinv x (List.mem_cons_of_mem _ hx) hxf hxa
      · simp only [if_neg hi, List.singleton_append, List.cons_append, List.filter_append,
          hkids_filter, List.nil_append]
        rw [List.filter_cons, List.filter_cons]
        have htail : (walkGroup cmap rest
            (emitChildren (cmap (normCodeOf r)) (i :: a)).2).1.filter (fun x => !H x) =
            rest.filter (fun x => !H x) := by
          apply ih _ hnd.2 hsafe2 hinj2
          intro x hx hxf
          rw [mem_emitChildren_snd]
          rintro (hxk | hxa)
          · rcases List.mem_map.mp hxk with ⟨y, hy, hy1⟩
            have hyc := emitChildren_sub hy
            have heq := hinj x (List.mem_cons_of_mem _ hx) _ y hyc hy1
            rw [← heq] at hxf
            rw [hsafe (i, r) (List.mem_cons_self _ _) h3 y hyc] at hxf
            cases hxf
          · rcases List.mem_cons.mp hxa with h | h
            · refine hnd.1 ?_
              rw [← h]
              exact List.mem_map.mpr ⟨x, hx, rfl⟩
            · exact hinv x (List.mem_cons_of_mem _ hx) hxf h
        rw [List.filter_append, hkids_filter, List.nil_append, htail]
    · simp only [walkGroup, if_neg h3]
      by_cases hi : i ∈ a
      · have hH : H (i, r) = true := by
          by_contra hf
          rw [Bool.not_eq_true] at hf
          exact hinv (i, r) (List.mem_cons_self _ _) hf hi
        simp only [if_pos hi]
        rw [List.filter_cons_of_neg (by simp [hH])]
        exact ih a hnd.2 hsafe2 hinj2 (fun x hx hxf => hinv x (List.mem_cons_of_mem _ hx) hxf)
      · simp only [if_neg hi]
        rw [List.filter_cons, List.filter_cons]
        have htail : (walkGroup cmap rest (i :: a)).1.filter (fun x => !H x) =
            rest.filter (fun x => !H x) := by
          apply ih _ hnd.2 hsafe2 hinj2
          intro x hx hxf
          rw [List.mem_cons]
          rintro (h | h)
          · refine hnd.1 ?_
            rw [← h]
            exact List.mem_map.mpr ⟨x, hx, rfl⟩
          · exact hinv x (List.mem_cons_of_mem _ hx) hxf h
        rw [htail]

theorem isChildCode_length {c : String} (h : isChildCode c = true) : 4 < c.length :=
  of_decide_eq_true ((Bool.and_eq_true _ _).mp h).1

theorem not_child_of_parent {c : String} (hP : c.length = 3) : isChildCode c = false := by
  by_contra h
  rw [Bool.not_eq_false] at h
  have := isChildCode_length h
  omega

theorem groupCore_parent_block (pre post : List ClinicalSearchResult)
    (P : ClinicalSearchResult) (hP : (normCodeOf P).length = 3)
    (hfirst : ∀ r ∈ pre, normCodeOf r ≠ normCodeOf P) :
    ∃ w₁ w₂, groupCore (pre ++ P :: post) = w₁ ++ P ::
      ((post.filter (fun r => isChildCode (normCodeOf r) &&
        decide ((normCodeOf r).take 3 = normCodeOf P))) ++ w₂) := by
  have htag : (pre ++ P :: post).enum =
      List.enumFrom 0 pre ++ (pre.length, P) :: List.enumFrom (pre.length + 1) post := by
    rw [List.enum_eq_enumFrom, enumFrom_append_eq, List.enumFrom_cons]
    simp
  have htnd : ((pre ++ P :: post).enum.map Prod.fst).Nodup := by
    rw [List.enum_eq_enumFrom, List.enumFrom_map_fst]
    exact List.nodup_range' 0 (pre ++ P :: post).length
  have hkP : (pre.length, P) ∈ (pre ++ P :: post).enum := by
    rw [htag]
    exact List.mem_append_right _ (List.mem_cons_self _ _)
  unfold groupCore
  set cmap := childrenOf (pre ++ P :: post).enum with hcmap
  set A := List.enumFrom 0 pre with hA
  set B := List.enumFrom (pre.length + 1) post with hB
  set cp : ℕ × ClinicalSearchResult → Bool := fun x =>
    isChildCode (normCodeOf x.2) && decide ((normCodeOf x.2).take 3 = normCodeOf P) with hcp
  rw [htag, walkGroup_append]
  set a1 := (walkGroup cmap A []).2 with ha1
  set outA := (walkGroup cmap A []).1 with houtA
  have ha1_mem : ∀ j ∈ a1, ∃ z ∈ outA, z.1 = j := by
    intro j hj
    rcases mem_walkGroup_snd.mp hj with h | h
    · rcases List.mem_map.mp h with ⟨z, hz, hz1⟩
      exact ⟨z, hz, hz1⟩
    · exact absurd h (List.not_mem_nil j)
  -- the parent index was not emitted while walking the prefix
  have hk : pre.length ∉ a1 := by
    intro hj
    obtain ⟨z, hz, hz1⟩ := ha1_mem pre.length hj
    rcases walkGroup_sub hz with hzA | ⟨y, hyA, hy3, hzc⟩
    · have hb := mem_enumFrom_bounds (hA ▸ hzA)
      omega
    · have hzfilter := List.mem_filter.mp hzc
      obtain ⟨zi, zv⟩ := z
      simp only at hz1
      subst hz1
      have hzP : zv = P := nodup_fst_inj htnd hzfilter.1 hkP
      subst hzP
      have hzchild := ((Bool.and_eq_true _ _).mp hzfilter.2).1
      rw [not_child_of_parent hP] at hzchild
      cases hzchild
  -- children of the parent occurring after it were not emitted either
  have hBfree : ∀ x ∈ B.filter cp, x.1 ∉ pre.length :: a1 := by
    intro x hx
    have hxB : x ∈ B := (List.mem_filter.mp hx).1
    have hxcp : cp x = true := (List.mem_filter.mp hx).2
    have hxb := mem_enumFrom_bounds (hB ▸ hxB)
    rw [List.mem_cons]
    rintro (hxk | hxa)
    · omega
    · obtain ⟨z, hz, hz1⟩ := ha1_mem x.1 hxa
      rcases walkGroup_sub hz with hzA | ⟨y, hyA, hy3, hzc⟩
      · have hb := mem_enumFrom_bounds (hA ▸ hzA)
        omega
      · have hzfilter := List.mem_filter.mp hzc
        have hxtag : x ∈ (pre ++ P :: post).enum := by
          rw [htag]
          exact List.mem_append_right _ (List.mem_cons_of_mem _ (hB ▸ hxB))
        obtain ⟨zi, zv⟩ := z
        obtain ⟨xi, xv⟩ := x
        simp only at hz1
        subst hz1
        have hzx : zv = xv := nodup_fst_inj htnd hzfilter.1 hxtag
        subst hzx
        have hztake : (normCodeOf zv).take 3 = normCodeOf y.2 :=
          of_decide_eq_true ((Bool.and_eq_true _ _).mp hzfilter.2).2
        have hxtake : (normCodeOf zv).take 3 = normCodeOf P := by
          have := ((Bool.and_eq_true _ _).mp hxcp).2
          exact of_decide_eq_true this
        have hyP : normCodeOf y.2 = normCodeOf P := by rw [← hztake, hxtake]
        have hypre : y.2 ∈ pre := mem_enumFrom_snd (hA ▸ hyA)
        exact hfirst y.2 hypre hyP
  -- the children lookup splits around the parent entry
  have hsplit : cmap (normCodeOf P) = A.filter cp ++ B.filter cp := by
    rw [hcmap]
    show childrenOf (pre ++ P :: post).enum (normCodeOf P) = _
    unfold childrenOf
    rw [htag, List.filter_append, List.filter_cons]
    have hno : (isChildCode (normCodeOf ((pre.length, P) : ℕ × ClinicalSearchResult).2) &&
        decide ((normCodeOf ((pre.length, P) : ℕ × ClinicalSearchResult).2).take 3 =
          normCodeOf P)) = false := by
      rw [show ((pre.length, P) : ℕ × ClinicalSearchResult).2 = P from rfl,
        not_child_of_parent hP]
      rfl
    rw [hno]
    rfl
  have hskip : emitChildren (A.filter cp) (pre.length :: a1) = ([], pre.length :: a1) := by
    apply emitChildren_skip
    intro x hx
    exact List.mem_cons_of_mem _
      (walkGroup_cover cmap A [] x (List.mem_of_mem_filter hx))
  have hBnd : ((B.filter cp).map Prod.fst).Nodup := by
    have h1 : (B.map Prod.fst).Nodup := by
      rw [hB, List.enumFrom_map_fst]
      exact List.nodup_range' (pre.length + 1) post.length
    exact h1.sublist ((List.filter_sublist B).map Prod.fst)
  have hall : (emitChildren (B.filter cp) (pre.length :: a1)).1 = B.filter cp :=
    emitChildren_all hBnd hBfree
  have hemit : (emitChildren (cmap (normCodeOf P)) (pre.length :: a1)).1 = B.filter cp := by
    rw [hsplit, emitChildren_append]
    simp only [hskip]
    rw [hall]
    rfl
  -- evaluate the parent step of the walk
  simp only [walkGroup, if_pos hP, if_neg hk]
  rw [hemit]
  refine ⟨outA.map Prod.snd,
    (walkGroup cmap B (emitChildren (cmap (normCodeOf P)) (pre.length :: a1)).2).1.map
      Prod.snd, ?_⟩
  have hmapB : (B.filter cp).map Prod.snd = post.filter
      (fun r => isChildCode (normCodeOf r) && decide ((normCodeOf r).take 3 = normCodeOf P)) := by
    rw [hB, hcp]
    exact enumFrom_filter_snd
      (fun r => isChildCode (normCodeOf r) && decide ((normCodeOf r).take 3 = normCodeOf P))
      (pre.length + 1) post
  rw [← hmapB]
  simp [List.map_append]


/-- A result is hoistable for an input list when it is a child code and some
3-character parent with its prefix is present in the list; only such results
can be moved by the grouping step. -/
def hoistableIn (rs : List ClinicalSearchResult) (r : ClinicalSearchResult) : Bool :=
  isChildCode (normCodeOf r) && rs.any (fun p => decide ((normCodeOf p).length = 3) &&
    decide (normCodeOf p = (normCodeOf r).take 3))

theorem enum_fst_nodup {α : Type*} (rs : List α) : (rs.enum.map Prod.fst).Nodup := by
  rw [List.enum_eq_enumFrom, List.enumFrom_map_fst]
  exact List.nodup_range' 0 rs.length

theorem groupResults_order (rs : List ClinicalSearchResult) :
    (groupResults rs).filter (fun r => !hoistableIn rs r) =
      rs.filter (fun r => !hoistableIn rs r) := by
  rw [groupResults_eq]
  split_ifs with h
  · unfold groupCore
    rw [List.filter_map]
    have hfun : ((fun r => !hoistableIn rs r) ∘ Prod.snd) =
        (fun x : ℕ × ClinicalSearchResult => !hoistableIn rs x.2) := rfl
    rw [hfun]
    have hsafe : ∀ x ∈ rs.enum, (normCodeOf x.2).length = 3 →
        ∀ y ∈ childrenOf rs.enum (normCodeOf x.2),
          (fun z : ℕ × ClinicalSearchResult => hoistableIn rs z.2) y = true := by
      intro x hx h3 y hy
      obtain ⟨hc, ht⟩ := (Bool.and_eq_true _ _).mp (List.mem_filter.mp hy).2
      show hoistableIn rs y.2 = true
      unfold hoistableIn
      apply (Bool.and_eq_true _ _).mpr
      refine ⟨hc, List.any_eq_true.mpr ⟨x.2, ?_, ?_⟩⟩
      · exact mem_enumFrom_snd (List.enum_eq_enumFrom ▸ hx)
      · have heq := of_decide_eq_true ht
        exact (Bool.and_eq_true _ _).mpr ⟨decide_eq_true h3, decide_eq_true heq.symm⟩
    have hinj : ∀ x ∈ rs.enum, ∀ p : String, ∀ y ∈ childrenOf rs.enum p,
        y.1 = x.1 → y = x := by
      intro x hx p y hy h1
      have hyt := (List.mem_filter.mp hy).1
      obtain ⟨yi, yv⟩ := y
      obtain ⟨xi, xv⟩ := x
      simp only at h1
      subst h1
      have heq := nodup_fst_inj (enum_fst_nodup rs) hyt hx
      rw [heq]
    have hmain := walkGroup_filter_safe (childrenOf rs.enum)
      (fun x => hoistableIn rs x.2) rs.enum [] (enum_fst_nodup rs) hsafe hinj
      (fun x _ _ => List.not_mem_nil _)
    rw [hmain, List.enum_eq_enumFrom]
    exact enumFrom_filter_snd (fun r => !hoistableIn rs r) 0 rs
  · rfl

/-- The claimed grouping property, from the claim wording: each parent in the
output is immediately followed by the input results whose codes match
parent-dot-star, in their input order. -/
def childrenMatching (inp : List ClinicalSearchResult) (p : ClinicalSearchResult) :
    List ClinicalSearchResult :=
  inp.filter (fun r => isChildCode (normCodeOf r) &&
    decide ((normCodeOf r).take 3 = normCodeOf p))

/-- The grouping property claimed by C7, stated over an input and an output
list. -/
def specParentFollowed (inp out : List ClinicalSearchResult) : Prop :=
  ∀ i, (hi : i < out.length) → (normCodeOf (out.get ⟨i, hi⟩)).length = 3 →
    (out.drop (i + 1)).take (childrenMatching inp (out.get ⟨i, hi⟩)).length =
      childrenMatching inp (out.get ⟨i, hi⟩)

/-- A concrete ranked result used by the grouping counterexample. -/
def c7res (c : String) : ClinicalSearchResult :=
  { code := c, label := "", score := 0, source := "icd10_extended",
    matchFeatures :=
      { exactCode := false, prefixCode := false, descriptionMatch := false,
        trigramSimilarity := 0, priority := 0, intentAligned := false,
        tagMatched := false } }

/-- Counterexample to claim C7 as stated: when a child precedes its parent in
the ranked order, the grouping leaves the list unchanged, so the parent E11 is
not immediately followed by the result E11.9 that matches E11-dot-star. -/
theorem c7_grouping_counterexample :
    (groupResults [c7res "E11.9", c7res "E11"]).map (fun r => r.code) = ["E11.9", "E11"] ∧
      ¬ specParentFollowed [c7res "E11.9", c7res "E11"]
          (groupResults [c7res "E11.9", c7res "E11"]) := by
  constructor
  · decide
  · intro h
    have := h 1 (by decide) (by decide)
    revert this
    decide

/-- Claim C7 (amended): the grouping step always returns a permutation of its
input; with no 3-character code present the list is unchanged; a parent whose
3-character code does not occur earlier in the list is immediately followed by
exactly the results matching parent-dot-star that occur after it, in their
original order; and the relative order of results that are not hoistable
children of a present parent is preserved. -/
theorem c7_grouping_amended (rs : List ClinicalSearchResult) :
    (groupResults rs).Perm rs ∧
      ((∀ r ∈ rs, (normCodeOf r).length ≠ 3) → groupResults rs = rs) ∧
      (∀ pre P post, rs = pre ++ P :: post → (normCodeOf P).length = 3 →
        (∀ r ∈ pre, normCodeOf r ≠ normCodeOf P) →
        ∃ w₁ w₂, groupResults rs = w₁ ++ P :: ((post.filter (fun r =>
          isChildCode (normCodeOf r) &&
            decide ((normCodeOf r).take 3 = normCodeOf P))) ++ w₂)) ∧
      (groupResults rs).filter (fun r => !hoistableIn rs r) =
        rs.filter (fun r => !hoistableIn rs r) := by
  refine ⟨?_, ?_, ?_, groupResults_order rs⟩
  · rw [groupResults_eq]
    split_ifs with h
    · exact groupCore_perm rs
    · exact List.Perm.refl rs
  · intro h
    rw [groupResults_eq, if_neg]
    rw [List.any_eq_true]
    rintro ⟨r, hr, hr3⟩
    exact h r hr (of_decide_eq_true hr3)
  · intro pre P post hrs hP hfirst
    subst hrs
    have hany : (pre ++ P :: post).any
        (fun r => decide ((normCodeOf r).length = 3)) = true :=
      List.any_eq_true.mpr ⟨P, List.mem_append_right _ (List.mem_cons_self _ _),
        by simp [hP]⟩
    rw [groupResults_eq, if_pos hany]
    exact groupCore_parent_block pre post P hP hfirst

/-- Witness for the amended claim C7: a parent followed by its later child is
grouped with the child directly after it. -/
theorem c7_grouping_amended_witness :
    ∃ w₁ w₂, groupResults [c7res "E11", c7res "E11.9"] = w₁ ++ c7res "E11" ::
      (([c7res "E11.9"].filter (fun r => isChildCode (normCodeOf r) &&
        decide ((normCodeOf r).take 3 = normCodeOf (c7res "E11")))) ++ w₂) :=
  (c7_grouping_amended [c7res "E11", c7res "E11.9"]).2.2.1 [] (c7res "E11")
    [c7res "E11.9"] rfl (by decide) (fun r hr => absurd hr (List.not_mem_nil r))

end ClinicalCore
